import Mathlib

/-!
Verification development for the Gist local semantic file-search engine
(rust-backend).  The Rust sources are shallowly embedded: Rust `String`s
become `List Char`, `f32`/`f64` arithmetic becomes exact rational (`ℚ`)
arithmetic (the standard exact-semantics reading of the floating-point
code; every claim checked here is insensitive to rounding), fallible
operations become `Option`/`Except`, and effectful code (SQLite rows,
the append-only embedding blob, the filesystem walk) becomes explicit
state passing with an explicit write log.  External collaborators
(the embedding HTTP service, `bincode` serialization, `chrono`'s local
calendar) are parameters of the embedding, exactly as they are external
to the Rust code.
-/

/-- Rust `String` / `&str`, modelled as its list of characters. -/
abbrev Str := List Char

/-- Rust `str::to_lowercase` (ASCII-faithful). -/
def lowerStr (s : Str) : Str := s.map Char.toLower

/-- Core of `splitOnPred`: splits a character list at every separator,
keeping empty pieces (they are filtered by `splitOnPred`). -/
def splitOnPredCore (p : Char → Bool) (l : List Char) : List (List Char) :=
  l.foldr
    (fun c acc =>
      match acc with
      | [] => if p c then [[], []] else [[c]]
      | h :: t => if p c then [] :: h :: t else (c :: h) :: t)
    [[]]

/-- Rust `str::split(p).filter(|s| !s.is_empty())`, and (with
`Char.isWhitespace`) Rust `str::split_whitespace`: split on separator
characters, dropping empty pieces. -/
def splitOnPred (p : Char → Bool) (l : Str) : List Str :=
  (splitOnPredCore p l).filter (fun s => ¬ s.isEmpty)

/-- Rust `str::split_whitespace`. -/
def splitWs (s : Str) : List Str := splitOnPred Char.isWhitespace s

/-- Rust `str::trim`. -/
def trimStr (s : Str) : Str :=
  ((s.dropWhile Char.isWhitespace).reverse.dropWhile Char.isWhitespace).reverse

/-- Rust `str::contains(&needle)`: substring containment. -/
def strContains (hay needle : Str) : Bool :=
  if needle.isPrefixOf hay then true
  else
    match hay with
    | [] => false
    | _ :: t => strContains t needle

/-- Rust byte-lexicographic `<` on `String` (UTF-8 byte order equals
code-point order). -/
def strLt : Str → Str → Bool
  | [], [] => false
  | [], _ :: _ => true
  | _ :: _, [] => false
  | a :: as, b :: bs =>
    if a.val < b.val then true
    else if b.val < a.val then false
    else strLt as bs

/-- Rust `Path::file_name` of a `/`-separated path (the component after
the last `/`); empty result stands for `None`. -/
def fileNameOf (p : Str) : Str :=
  (p.reverse.takeWhile (fun c => c ≠ '/')).reverse

/-- Rust `Path::extension`: `none` when the file name has no dot or only
a leading dot; `some` of the part after the last dot otherwise. -/
def extensionOf? (p : Str) : Option Str :=
  let name := fileNameOf p
  let rev := name.reverse
  if rev.contains '.' then
    let extRev := rev.takeWhile (fun c => c ≠ '.')
    let rest := rev.dropWhile (fun c => c ≠ '.')
    -- rest = '.' :: stemRev; a dot in first position of the name means a
    -- hidden file without extension
    if rest.length ≤ name.length ∧ rest.drop 1 = [] ∧ name.headD ' ' = '.' then none
    else some extRev.reverse
  else none

/-- Rust `path.extension().and_then(|e| e.to_str()).unwrap_or("")`. -/
def extensionOf (p : Str) : Str := (extensionOf? p).getD []

/-- `String` literal to its character-list embedding. -/
def str (s : String) : Str := s.data

/- f32 arithmetic carries exact rational semantics.  Batteries marks
`Rat.add`, `Rat.mul`, `Rat.sub` and `Rat.inv` `@[irreducible]`, which
blocks kernel evaluation of concrete instances, so the embedding uses
the following definitionally transparent equivalents built on the
reducible smart constructor `mkRat`.  No claim below depends on
algebraic laws of these operations — only on the (reducible) order
`≤` on `ℚ`. -/

/-- f32 `+` (exact rational semantics). -/
def qadd (a b : ℚ) : ℚ := mkRat (a.num * b.den + b.num * a.den) (a.den * b.den)

/-- f32 `-` (exact rational semantics). -/
def qsub (a b : ℚ) : ℚ := mkRat (a.num * b.den - b.num * a.den) (a.den * b.den)

/-- f32 `*` (exact rational semantics). -/
def qmul (a b : ℚ) : ℚ := mkRat (a.num * b.num) (a.den * b.den)

/-- f32 `/` (exact rational semantics; the source never divides by
zero). -/
def qdiv (a b : ℚ) : ℚ :=
  let n := a.num * b.den
  let d := a.den * b.num
  if d < 0 then mkRat (-n) (-d).toNat else mkRat n d.toNat

/-- `f32::min` (both operands are ordinary numbers in the source). -/
def qmin (a b : ℚ) : ℚ := if a ≤ b then a else b

/-- `f32::max`. -/
def qmax (a b : ℚ) : ℚ := if b ≤ a then a else b

/- ## `src/search.rs` -/

/-- `search.rs::calculate_char_similarity` inner while loop: a greedy
longest-common-subsequence approximation.  Advances through the query
characters; on a mismatch it scans the remaining filename characters for
the query character. -/
def charSimCommon : List Char → List Char → Nat
  | [], _ => 0
  | _ :: _, [] => 0
  | q :: qs, f :: fs =>
    if q = f then charSimCommon qs fs + 1
    else
      match (f :: fs).dropWhile (fun c => c ≠ q) with
      | [] => charSimCommon qs (f :: fs)
      | _ :: rest => charSimCommon qs rest + 1

/-- `search.rs::calculate_char_similarity`. -/
def calculate_char_similarity (query filename : Str) : ℚ :=
  if query.isEmpty ∨ filename.isEmpty then 0
  else
    let common := charSimCommon query filename
    let maxLen := max query.length filename.length
    qmin (qdiv (common : ℚ) (maxLen : ℚ)) 1

/-- Inner `for filename_word in &filename_words` loop of
`search.rs::filename_similarity` (the loop breaks on the first match, so
it is `List.any` of the per-word condition). -/
def wordMatches (queryWord : Str) (filenameWords : List Str) : Bool :=
  filenameWords.any (fun fw =>
    fw = queryWord ∨
      (queryWord.length ≥ 4 ∧
        (fw = queryWord ∨
          (fw.length ≤ queryWord.length + 2 ∧ strContains fw queryWord ∧
            (queryWord.isPrefixOf fw ∨
              qdiv (queryWord.length : ℚ) (fw.length : ℚ) > mkRat 6 10)))))

/-- `search.rs::filename_similarity`. -/
def filename_similarity (query filename : Str) : ℚ :=
  let queryLower := lowerStr query
  let filenameLower := lowerStr filename
  if filenameLower = queryLower then 1
  else if queryLower.length ≥ 4 ∧ strContains filenameLower queryLower then
    if queryLower.isPrefixOf filenameLower then mkRat 95 100 else mkRat 85 100
  else
    let queryWords := splitWs queryLower
    if queryWords.isEmpty then 0
    else
      let filenameWords :=
        splitOnPred (fun c => c.isWhitespace ∨ c = '-' ∨ c = '_' ∨ c = '.') filenameLower
      if filenameWords.isEmpty then 0
      else
        let matchedWords :=
          (queryWords.filter
            (fun qw => ¬ qw.length < 3 ∧ wordMatches qw filenameWords)).length
        if matchedWords = 0 then 0
        else
          let wordMatchRatio : ℚ := qdiv (matchedWords : ℚ) (queryWords.length : ℚ)
          let charSimilarity :=
            if matchedWords > 0 then calculate_char_similarity queryLower filenameLower
            else 0
          qadd (qmul wordMatchRatio (mkRat 8 10)) (qmul charSimilarity (mkRat 2 10))

/-- `search.rs::hybrid_similarity`. -/
def hybrid_similarity (vectorSim filenameSim : ℚ) (weights : ℚ × ℚ) : ℚ :=
  qadd (qmul vectorSim weights.1) (qmul filenameSim weights.2)

/- ## `src/storage.rs`: the `FileMetadata` record -/

/-- `storage.rs::FileMetadata`. -/
structure FileMetadata where
  id : Int
  file_path : Str
  file_name : Str
  file_size : Int
  modified_time : Int
  file_type : Str
  embedding_offset : Int
  embedding_length : Int
deriving DecidableEq, Repr

/- ## `src/config.rs`: the fields of `AppConfig` consumed by the parts
of the program under verification.  (`config.rs` in this snapshot lacks
`excluded_extensions` and `filter_duplicate_files`, but
`api/search.rs` reads them through
`config.file_type_filters.excluded_extensions` and
`config.filter_duplicate_files`; they are modelled as plain fields.
`config.rs` performs no clamping of any numeric field.) -/

/-- The configuration fields used by the indexer and the search API. -/
structure AppConfig where
  indexed_directories : List Str
  excluded_extensions : List Str
  chunk_size : Nat
  max_context_tokens : Nat
  auto_index : Bool
  max_search_results : Nat
  filter_duplicate_files : Bool
deriving Repr

/-- Rust's stable `sort_by(|a, b| b.1.partial_cmp(&a.1)...)`
(descending by score), modelled as insertion sort: for a total
comparator a stable sort is unique, so this agrees with the source's
stable merge sort.  Insertion sort is structurally recursive, so
concrete instances evaluate inside the kernel. -/
def sortByScoreDesc {α : Type} (l : List (α × ℚ)) : List (α × ℚ) :=
  List.insertionSort (fun a b => b.2 ≤ a.2) l

instance {α : Type} : IsTotal (α × ℚ) (fun a b => b.2 ≤ a.2) :=
  ⟨fun a b => le_total b.2 a.2⟩

instance {α : Type} : IsTrans (α × ℚ) (fun a b => b.2 ≤ a.2) :=
  ⟨fun _ _ _ h1 h2 => le_trans h2 h1⟩

/- ## `src/hnsw_index.rs` -/

/-- `hnsw_index.rs::HnswIndex`: parallel arrays of vectors and records,
plus the id→slot map. -/
structure HnswIndex where
  embeddings : List (List ℚ)
  metadata_list : List FileMetadata
  id_to_index : List (Int × Nat)
  dimensions : Nat
deriving Repr

/-- `HashMap::insert`: replace the value at an existing key, or add the
pair. -/
def assocPut (assoc : List (Int × Nat)) (k : Int) (v : Nat) : List (Int × Nat) :=
  match assoc with
  | [] => [(k, v)]
  | (k', v') :: t => if k' = k then (k, v) :: t else (k', v') :: assocPut t k v

/-- `HashMap::remove`. -/
def assocErase (assoc : List (Int × Nat)) (k : Int) : List (Int × Nat) :=
  assoc.eraseP (fun e => e.1 = k)

/-- `Vec::swap` on indices `i`, `j` (no-op out of bounds; the source
only swaps in-bounds indices). -/
def listSwap {α : Type} (l : List α) (i j : Nat) : List α :=
  match l.get? i, l.get? j with
  | some a, some b => (l.set i b).set j a
  | _, _ => l

/-- `HnswIndex::new`. -/
def HnswIndex.new (dimensions : Nat) : HnswIndex :=
  ⟨[], [], [], dimensions⟩

/-- `HnswIndex::len`. -/
def HnswIndex.len (idx : HnswIndex) : Nat := idx.embeddings.length

/-- `HnswIndex::add`. -/
def HnswIndex.add (idx : HnswIndex) (embedding : List ℚ) (metadata : FileMetadata) :
    Except Str HnswIndex :=
  if embedding.length ≠ idx.dimensions then
    .error (str "Embedding dimension mismatch")
  else
    .ok { idx with
      embeddings := idx.embeddings ++ [embedding],
      metadata_list := idx.metadata_list ++ [metadata],
      id_to_index := assocPut idx.id_to_index metadata.id idx.embeddings.length }

/-- Minimum similarity in the `BinaryHeap` (what `peek_mut` exposes
under the reversed ordering); never called on an empty heap. -/
def heapMinScore (heap : List (ℚ × Nat)) : ℚ :=
  match heap with
  | [] => 0
  | h :: t => t.foldl (fun m x => qmin m x.1) h.1

/-- `*top = SimilarityItem { .. }` through `peek_mut`: replace one
minimal element of the heap. -/
def heapReplaceFirstMin : List (ℚ × Nat) → ℚ → (ℚ × Nat) → List (ℚ × Nat)
  | [], _, _ => []
  | h :: t, m, v => if h.1 = m then v :: t else h :: heapReplaceFirstMin t m v

/-- One iteration of the bounded-heap loop in `HnswIndex::search`:
push while below capacity, else replace the minimum when the new
similarity beats it (`peek_mut` on an empty heap, i.e. `k = 0`, is a
no-op). -/
def heapStep (k : Nat) (heap : List (ℚ × Nat)) (v : ℚ × Nat) : List (ℚ × Nat) :=
  if heap.length < k then v :: heap
  else
    match heap with
    | [] => heap
    | _ :: _ =>
      let m := heapMinScore heap
      if v.1 > m then heapReplaceFirstMin heap m v else heap

/-- The `for (idx, emb) in self.embeddings.iter().enumerate()` loop of
`HnswIndex::search`, with `sim` abstracting
`crate::search::cosine_similarity` (whose square roots are irrational;
no property verified here depends on the similarity values). -/
def hnswLoop (sim : List ℚ → List ℚ → ℚ) (q : List ℚ) (k : Nat) :
    List (List ℚ) → Nat → List (ℚ × Nat) → List (ℚ × Nat)
  | [], _, heap => heap
  | emb :: rest, i, heap => hnswLoop sim q k rest (i + 1) (heapStep k heap (sim q emb, i))

/-- The `(similarity, index)` pairs fed to the heap by the enumerate
loop of `HnswIndex::search`, starting at index `i` (an observation
helper over `hnswLoop`). -/
def hnswTagFrom (sim : List ℚ → List ℚ → ℚ) (q : List ℚ) :
    List (List ℚ) → Nat → List (ℚ × Nat)
  | [], _ => []
  | e :: rest, i => (sim q e, i) :: hnswTagFrom sim q rest (i + 1)

/-- `HnswIndex::search`. -/
def HnswIndex.search (idx : HnswIndex) (sim : List ℚ → List ℚ → ℚ)
    (query_embedding : List ℚ) (k : Nat) : Except Str (List (FileMetadata × ℚ)) :=
  if query_embedding.length ≠ idx.dimensions then
    .error (str "Query embedding dimension mismatch")
  else if idx.embeddings.isEmpty then .ok []
  else
    let heap := hnswLoop sim query_embedding k idx.embeddings 0 []
    let results := sortByScoreDesc (heap.map fun it => (it.2, it.1))
    .ok (results.filterMap (fun r => (idx.metadata_list.get? r.1).map (fun m => (m, r.2))))

/-- `HnswIndex::remove`: swap-with-last by `file_path`, then pop. -/
def HnswIndex.remove (idx : HnswIndex) (file_path : Str) : HnswIndex :=
  match idx.metadata_list.findIdx? (fun m => m.file_path = file_path) with
  | none => idx
  | some i =>
    let lastIdx := idx.embeddings.length - 1
    let embs := if i ≠ lastIdx then listSwap idx.embeddings i lastIdx else idx.embeddings
    let metas :=
      if i ≠ lastIdx then listSwap idx.metadata_list i lastIdx else idx.metadata_list
    let idToIndex :=
      if i ≠ lastIdx then
        match metas.get? i with
        | some swappedMeta => assocPut idx.id_to_index swappedMeta.id i
        | none => idx.id_to_index
      else idx.id_to_index
    let idToIndex :=
      match metas.getLast? with
      | some removedMeta => assocErase idToIndex removedMeta.id
      | none => idToIndex
    { embeddings := embs.dropLast, metadata_list := metas.dropLast,
      id_to_index := idToIndex, dimensions := idx.dimensions }

/-- `HnswIndex::clear`. -/
def HnswIndex.clear (idx : HnswIndex) : HnswIndex :=
  { idx with embeddings := [], metadata_list := [], id_to_index := [] }

/-- `HnswIndex::rebuild_from_embeddings` (per-item `add` errors are
logged and skipped). -/
def HnswIndex.rebuild_from_embeddings (idx : HnswIndex)
    (embeddings : List (FileMetadata × List ℚ)) : HnswIndex :=
  match embeddings with
  | [] => idx.clear
  | (_, v0) :: _ =>
    let base := if v0.length ≠ idx.dimensions then HnswIndex.new v0.length else idx.clear
    embeddings.foldl
      (fun acc p =>
        match acc.add p.2 p.1 with
        | .ok a => a
        | .error _ => acc)
      base

/-- The invariant of claim C10: parallel arrays agree in length and
every stored vector has the index's dimensionality. -/
def HnswIndex.WF (idx : HnswIndex) : Prop :=
  idx.embeddings.length = idx.metadata_list.length ∧
    ∀ v ∈ idx.embeddings, v.length = idx.dimensions

/-- Loop invariant of the bounded min-heap in `HnswIndex::search`: the
heap holds `min k |processed|` pairs drawn from the processed
`(score, index)` pairs, every processed pair is either in the heap or
scores no higher than everything in it, and below capacity the heap
holds every processed pair. -/
def hnswHeapInv (k : Nat) (heap P : List (ℚ × Nat)) : Prop :=
  heap.length = min k P.length ∧
  (∀ v ∈ heap, v ∈ P) ∧
  (∀ p ∈ P, p ∈ heap ∨ ∀ v ∈ heap, p.1 ≤ v.1) ∧
  (heap.length < k → ∀ p ∈ P, p ∈ heap)

/- ## `src/api/search.rs` -/

/-- `api/search.rs::DateRange` (`end_` embeds the source field `end`,
a Lean keyword). -/
structure DateRange where
  start : Option Int
  end_ : Option Int
  month : Option Nat
  year : Option Int
deriving DecidableEq, Repr

/-- `api/search.rs::FilterOptions`. -/
structure FilterOptions where
  date_range : Option DateRange
  file_types : Option (List Str)
  folder_paths : Option (List Str)
deriving DecidableEq, Repr

/-- `api/search.rs::SearchRequest`. -/
structure SearchRequest where
  query : Str
  limit : Option Nat
  filters : Option FilterOptions
deriving Repr

/-- `api/search.rs::SearchResult`. -/
structure SearchResult where
  file_path : Str
  file_name : Str
  similarity : ℚ
  preview : Option Str
deriving DecidableEq, Repr

/-- `api/search.rs::matches_date_range`.  `localOf` abstracts
`chrono::Local.timestamp_opt(ts, 0).single()`, yielding the local
`(month, year)` of a Unix timestamp (`none` when chrono fails, in which
case the month/year checks are skipped exactly as in the source). -/
def matches_date_range (localOf : Int → Option (Nat × Int)) (timestamp : Int)
    (date_range : DateRange) : Bool :=
  if date_range.start.any fun s => decide (timestamp < s) then false
  else if date_range.end_.any fun e => decide (timestamp > e) then false
  else if date_range.month.isSome ∨ date_range.year.isSome then
    match localOf timestamp with
    | some my =>
      if date_range.month.any fun m => decide (my.1 ≠ m) then false
      else if date_range.year.any fun y => decide (my.2 ≠ y) then false
      else true
    | none => true
  else true

/-- The per-record predicate of `api/search.rs::apply_filters`: the
record must pass every filter that is set, plus the globally configured
excluded-extension list. -/
def passes_filters (localOf : Int → Option (Nat × Int)) (excluded_extensions : List Str)
    (filters : FilterOptions) (metadata : FileMetadata) : Bool :=
  (match filters.date_range with
   | some date_range => matches_date_range localOf metadata.modified_time date_range
   | none => true) &&
  (match filters.file_types with
   | some file_types =>
     let file_ext := lowerStr (extensionOf metadata.file_path)
     file_types.any fun ft => file_ext = ft
   | none => true) &&
  (match filters.folder_paths with
   | some folder_paths =>
     let file_path_lower := lowerStr metadata.file_path
     folder_paths.any fun folder => strContains file_path_lower (lowerStr folder)
   | none => true) &&
  (if ¬ excluded_extensions.isEmpty then
     let file_ext := lowerStr (extensionOf metadata.file_path)
     ¬ excluded_extensions.any fun e => lowerStr e = file_ext
   else true)

/-- `api/search.rs::apply_filters`. -/
def apply_filters (localOf : Int → Option (Nat × Int))
    (results : List (FileMetadata × ℚ)) (filters : FilterOptions)
    (excluded_extensions : List Str) : List (FileMetadata × ℚ) :=
  results.filter fun r => passes_filters localOf excluded_extensions filters r.1

/-- `api/search.rs::adjust_similarity_for_file_length`. -/
def adjust_similarity_for_file_length (base_similarity : ℚ) (file_name : Str)
    (file_size : Int) (query_word_count : Nat) : ℚ :=
  let file_name_words :=
    splitOnPred (fun c => c.isWhitespace ∨ c = '-' ∨ c = '_' ∨ c = '.') file_name
  let file_name_word_count := file_name_words.length
  let adjusted :=
    if file_name_word_count ≤ 2 then
      let penalty : ℚ := if file_name_word_count = 1 then mkRat 25 100 else mkRat 15 100
      qmul base_similarity (qsub 1 penalty)
    else base_similarity
  let adjusted :=
    if file_size < 100 then qmul adjusted (mkRat 85 100)
    else if file_size < 500 then qmul adjusted (mkRat 92 100)
    else adjusted
  let adjusted :=
    if query_word_count ≤ 2 ∧ file_name_word_count ≤ 2 then qmul adjusted (mkRat 90 100)
    else adjusted
  qmin (qmax adjusted 0) 1

/-- The `semantic_keywords` array of `api/search.rs::search_files`. -/
def semantic_keywords : List Str :=
  [str "calculus", str "algebra", str "geometry", str "physics", str "chemistry",
   str "biology", str "history", str "literature", str "philosophy", str "psychology",
   str "sociology", str "programming", str "algorithm", str "database", str "network",
   str "security", str "homework", str "assignment", str "project", str "report",
   str "essay", str "thesis", str "mathematics", str "math", str "science",
   str "engineering", str "computer"]

/-- The per-candidate hybrid-scoring block of
`api/search.rs::search_files` (duplicated verbatim in the source for the
HNSW branch, lines 168–226, and the linear branch, lines 263–335). -/
def score_candidate (query : Str) (vector_sim : ℚ) (meta : FileMetadata) : ℚ :=
  let filename_sim := filename_similarity query meta.file_name
  let query_lower := lowerStr query
  let word_count := (splitWs query).length
  let has_extension := query.contains '.'
  let is_short := query.length < 20
  let is_semantic_keyword :=
    semantic_keywords.any fun kw => query_lower = kw ∨ kw.isPrefixOf query_lower
  let is_filename_query :=
    has_extension ∨ (word_count > 1 ∧ is_short ∧ filename_sim > mkRat 7 10) ∨
      (word_count = 1 ∧ ¬ is_semantic_keyword ∧ filename_sim > mkRat 8 10)
  let weights : ℚ × ℚ :=
    if is_filename_query then (mkRat 3 10, mkRat 7 10) else (mkRat 8 10, mkRat 2 10)
  let hybrid_sim := hybrid_similarity vector_sim filename_sim weights
  let hybrid_sim :=
    if filename_sim < mkRat 1 10 ∧ vector_sim > mkRat 6 10 then
      qmul hybrid_sim (mkRat 8 10)
    else hybrid_sim
  let hybrid_sim :=
    if word_count = 1 ∧ filename_sim < mkRat 3 10 then qmul hybrid_sim (mkRat 85 100)
    else hybrid_sim
  adjust_similarity_for_file_length hybrid_sim meta.file_name meta.file_size
    (splitWs query).length

/-- Serialized-vector key used by `deduplicate_by_embedding`
(`bincode::serialize` of a `Vec<f32>`, which is infallible). -/
abbrev DedupKey := List Nat

/-- `HashMap` insert-or-keep-smaller-path used by
`api/search.rs::deduplicate_by_embedding`: at an existing key the stored
pair is replaced only when the new record's `file_path` is strictly
lexicographically smaller. -/
def dedup_insert (seen : List (DedupKey × (FileMetadata × ℚ))) (key : DedupKey)
    (v : FileMetadata × ℚ) : List (DedupKey × (FileMetadata × ℚ)) :=
  match seen with
  | [] => [(key, v)]
  | (k, w) :: rest =>
    if k = key then
      if strLt v.1.file_path w.1.file_path then (k, v) :: rest else (k, w) :: rest
    else (k, w) :: dedup_insert rest key v

/-- One iteration of the `for (meta, score) in with_embedding` loop of
`deduplicate_by_embedding`: records whose stored vector fails to load
are kept verbatim (appended to the `without_embedding` list). -/
def dedup_step (get_embedding : FileMetadata → Option (List ℚ)) (ser : List ℚ → DedupKey)
    (acc : List (DedupKey × (FileMetadata × ℚ)) × List (FileMetadata × ℚ))
    (r : FileMetadata × ℚ) :
    List (DedupKey × (FileMetadata × ℚ)) × List (FileMetadata × ℚ) :=
  match get_embedding r.1 with
  | none => (acc.1, acc.2 ++ [r])
  | some emb => (dedup_insert acc.1 (ser emb) r, acc.2)

/-- `api/search.rs::deduplicate_by_embedding`.  `get_embedding`
abstracts `Storage::get_embedding` (a blob read), `ser` abstracts
`bincode::serialize`. -/
def deduplicate_by_embedding (get_embedding : FileMetadata → Option (List ℚ))
    (ser : List ℚ → DedupKey) (results : List (FileMetadata × ℚ)) :
    List (FileMetadata × ℚ) :=
  let with_embedding := results.filter fun r => 0 < r.1.embedding_length
  let without_embedding := results.filter fun r => ¬ 0 < r.1.embedding_length
  if with_embedding.isEmpty then without_embedding
  else
    let folded := with_embedding.foldl (dedup_step get_embedding ser) ([], without_embedding)
    folded.1.map (fun e => e.2) ++ folded.2

/-- The server state consumed by `search_files`.  Storage reads
(`get_all_embeddings`, `get_files_without_embeddings` — the latter is
declared only through its caller in this snapshot and is modelled from
the spec's `list_without_vector`), the embedding service, `bincode` and
the local calendar are data of the state. -/
structure AppState where
  config : AppConfig
  hnsw_index : Option HnswIndex
  all_embeddings : List (FileMetadata × List ℚ)
  files_without_embeddings : List FileMetadata
  get_embedding : FileMetadata → Option (List ℚ)
  ser : List ℚ → DedupKey
  sim : List ℚ → List ℚ → ℚ
  embed_query : Str → Option (List ℚ)
  localOf : Int → Option (Nat × Int)

/-- `let limit = request.limit.unwrap_or(default_limit).min(200)` of
`api/search.rs::search_files` (line 112). -/
def effective_limit (limit : Option Nat) (config : AppConfig) : Nat :=
  min (limit.getD config.max_search_results) 200

/-- Candidate retrieval of `search_files`: the HNSW branch (falling
back to the linear scan whenever it yields nothing) followed by the
keyword sweep over records without embeddings. -/
def search_candidates (st : AppState) (query : Str) (query_embedding : List ℚ)
    (limit : Nat) : List (FileMetadata × ℚ) :=
  let results :=
    match st.hnsw_index with
    | some hnsw =>
      if hnsw.len > 0 then
        match hnsw.search st.sim query_embedding (limit * 2) with
        | .ok hnsw_results =>
          hnsw_results.map fun (r : FileMetadata × ℚ) => (r.1, score_candidate query r.2 r.1)
        | .error _ => []
      else []
    | none => []
  let results :=
    if results.isEmpty then
      st.all_embeddings.map fun (r : FileMetadata × List ℚ) =>
        (r.1, score_candidate query (st.sim query_embedding r.2) r.1)
    else results
  results ++ st.files_without_embeddings.filterMap fun meta =>
    let filename_sim := filename_similarity query meta.file_name
    if filename_sim > mkRat 1 10 then
      some (meta, adjust_similarity_for_file_length filename_sim meta.file_name
        meta.file_size (splitWs query).length)
    else none

/-- Filter application of `search_files` (lines 383–414): per-request
filters (with the global exclusion folded into `apply_filters`) when at
least one filter is set; the bare global exclusion when the request
carries no `filters` object; nothing when `filters` is present but
entirely empty. -/
def apply_request_filters (st : AppState) (filters? : Option FilterOptions)
    (results : List (FileMetadata × ℚ)) : List (FileMetadata × ℚ) :=
  match filters? with
  | some filters =>
    if filters.date_range.isSome ∨ filters.file_types.isSome ∨
        filters.folder_paths.isSome then
      apply_filters st.localOf results filters st.config.excluded_extensions
    else results
  | none =>
    if ¬ st.config.excluded_extensions.isEmpty then
      results.filter fun r =>
        let file_ext := lowerStr (extensionOf r.1.file_path)
        ¬ st.config.excluded_extensions.any fun e => lowerStr e = file_ext
    else results

/-- `api/search.rs::search_files`: the `/api/search` handler.  Errors
are the HTTP status codes of the source (400 for an empty query, 500
for an embedding failure). -/
def search_files (st : AppState) (request : SearchRequest) :
    Except Nat (List SearchResult) :=
  let query := trimStr request.query
  if query.isEmpty then .error 400
  else
    let limit := effective_limit request.limit st.config
    match st.embed_query query with
    | none => .error 500
    | some query_embedding =>
      let results := search_candidates st query query_embedding limit
      let results := apply_request_filters st request.filters results
      let results :=
        if st.config.filter_duplicate_files then
          deduplicate_by_embedding st.get_embedding st.ser results
        else results
      let sorted := sortByScoreDesc results
      .ok ((sorted.take limit).map fun r => ⟨r.1.file_path, r.1.file_name, r.2, none⟩)

/- ## `src/storage.rs`: state model -/

/-- The persistent state owned by `Storage`: the SQLite `files` table
(rows in insertion order; `INSERT OR REPLACE` deletes the old row and
appends the new one) and the append-only `embeddings.bin` blob (a byte
list; a missing file is the empty blob, both give offset 0). -/
structure StorageState where
  files : List FileMetadata
  blob : List Nat
deriving DecidableEq, Repr

/-- A write against `Storage`, for the write logs of the claims about
idempotence and blob framing. -/
inductive WriteOp where
  | upsertRow (row : FileMetadata)
  | appendBlob (bytes : List Nat)
  | deleteRow (file_path : Str)
deriving DecidableEq, Repr

/-- `SELECT ... WHERE file_path = ?1` (`Storage::get_file_metadata`). -/
def StorageState.get_file_metadata (st : StorageState) (file_path : Str) :
    Option FileMetadata :=
  st.files.find? fun f => f.file_path = file_path

/-- `INSERT OR REPLACE INTO files ...`: drop any row with the path,
append the new row. -/
def StorageState.replaceRow (st : StorageState) (row : FileMetadata) : StorageState :=
  { st with files := (st.files.filter fun f => f.file_path ≠ row.file_path) ++ [row] }

/-- `Storage::add_file` (storage.rs lines 66–151), with `ser`
abstracting `bincode::serialize` of a `Vec<f32>`.  Returns the new
state and the writes performed.  When a prior row for the path has the
same `modified_time`, `file_size` and serialized byte length, the
existing blob slice is reused; otherwise the serialized vector is
appended at the current end of the blob. -/
def Storage.add_file (ser : List ℚ → List Nat) (st : StorageState)
    (metadata : FileMetadata) (embedding : List ℚ) : StorageState × List WriteOp :=
  let serialized := ser embedding
  match st.get_file_metadata metadata.file_path with
  | some existing =>
    if existing.modified_time = metadata.modified_time ∧
        existing.file_size = metadata.file_size ∧
        existing.embedding_length = (serialized.length : Int) then
      let row := { metadata with
        embedding_offset := existing.embedding_offset,
        embedding_length := existing.embedding_length }
      (st.replaceRow row, [.upsertRow row])
    else
      let row := { metadata with
        embedding_offset := (st.blob.length : Int),
        embedding_length := (serialized.length : Int) }
      (⟨(st.files.filter fun f => f.file_path ≠ row.file_path) ++ [row],
        st.blob ++ serialized⟩,
       [.appendBlob serialized, .upsertRow row])
  | none =>
    let row := { metadata with
      embedding_offset := (st.blob.length : Int),
      embedding_length := (serialized.length : Int) }
    (⟨(st.files.filter fun f => f.file_path ≠ row.file_path) ++ [row],
      st.blob ++ serialized⟩,
     [.appendBlob serialized, .upsertRow row])

/-- Modelled from the spec: `upsert(record, vector?)` with the vector
absent (the metadata-only calls `storage.add_file(&meta, None)` in
`indexer.rs`; this snapshot's `storage.rs` signature takes the vector
unconditionally, so the absent-vector case is not under `src/`).  Per
spec §4.3 and §3, no blob append happens and the row is written with
`embedding_offset = embedding_length = 0`. -/
def Storage.add_file_opt (ser : List ℚ → List Nat) (st : StorageState)
    (metadata : FileMetadata) (embedding : Option (List ℚ)) :
    StorageState × List WriteOp :=
  match embedding with
  | some v => Storage.add_file ser st metadata v
  | none =>
    let row := { metadata with embedding_offset := 0, embedding_length := 0 }
    (st.replaceRow row, [.upsertRow row])

/-- `Storage::delete_file`. -/
def Storage.delete_file (st : StorageState) (file_path : Str) :
    StorageState × List WriteOp :=
  ({ st with files := st.files.filter fun f => f.file_path ≠ file_path },
   [.deleteRow file_path])

/-- `Storage::get_all_files`. -/
def StorageState.get_all_files (st : StorageState) : List FileMetadata := st.files

/- ## `src/indexer.rs` -/

/-- Rust `usize::to_string` (used by `format!` for section numbers). -/
def natToStr (n : Nat) : Str := Nat.toDigits 10 n

/-- Fuel-driven core of `chunksOf` (structural recursion, so concrete
instances evaluate inside the kernel; the fuel `l.length` always
suffices). -/
def chunksOfAux {α : Type} (n : Nat) : Nat → List α → List (List α)
  | _, [] => []
  | 0, _ :: _ => []
  | fuel + 1, x :: xs => (x :: xs).take n :: chunksOfAux n fuel ((x :: xs).drop n)

/-- `slice::chunks(n)` (never called with `n = 0` by the source;
`n = 0` yields `[]` here). -/
def chunksOf {α : Type} (n : Nat) (l : List α) : List (List α) :=
  if n = 0 then [] else chunksOfAux n l.length l

/-- `Indexer::chunk_text`. -/
def chunk_text (chunk_size : Nat) (text : Str) : List Str :=
  let chunks := (chunksOf chunk_size (splitWs text)).map (List.intercalate (str " "))
  if chunks.isEmpty then [text] else chunks

/-- Fuel-driven core of `rangeStep` (the fuel `stop - start` always
suffices for `step ≥ 1`). -/
def rangeStepAux (step : Nat) : Nat → Nat → Nat → List Nat
  | 0, _, _ => []
  | fuel + 1, start, stop =>
    if stop ≤ start then [] else start :: rangeStepAux step fuel (start + step) stop

/-- `(start..stop).step_by(step)` (the source guarantees `step ≥ 1`). -/
def rangeStep (start stop step : Nat) : List Nat :=
  if step = 0 then [] else rangeStepAux step (stop - start) start stop

/-- `Indexer::intelligent_chunk_sampling`.  `(max_tokens as f64 * 0.75)
as usize` is exactly `3 * max_tokens / 4` (0.75 is dyadic), and the
section keeps at most 4 chunks. -/
def intelligent_chunk_sampling (chunks : List Str) (max_tokens : Nat) : Str :=
  match chunks with
  | [] => []
  | c0 :: _ =>
    let num_chunks := chunks.length
    let selected :=
      if num_chunks > 2 then
        let middle_start := num_chunks / 4
        let middle_end := num_chunks * 3 / 4
        let num_middle_samples := min 3 (middle_end - middle_start)
        if num_middle_samples > 0 then
          let step := max ((middle_end - middle_start) / max num_middle_samples 1) 1
          (rangeStep middle_start middle_end step).foldl
            (fun sel i =>
              if i < chunks.length ∧ sel.length < 4 then sel ++ [chunks.getD i []]
              else sel)
            [c0]
        else [c0]
      else [c0]
    let selected :=
      if num_chunks > 1 then selected ++ [chunks.getD (num_chunks - 1) []] else selected
    let combined := List.intercalate (str "\n\n") selected
    let estimated_tokens := combined.length / 4
    let safe_limit := max_tokens * 3 / 4
    if estimated_tokens > safe_limit then
      if combined.length > safe_limit * 4 then combined.take (safe_limit * 4)
      else combined
    else combined

/-- Fuel-driven least `n` with `m ≤ 2 ^ n`, starting from `cur = 2 ^ n`
(structural recursion so that concrete instances evaluate inside the
kernel; equals `Nat.clog 2 m`, see `ceilLog2_eq_clog`). -/
def ceilLog2Aux (m : Nat) : Nat → Nat → Nat → Nat
  | 0, _, n => n
  | fuel + 1, cur, n =>
    if m ≤ cur then n else ceilLog2Aux m fuel (cur * 2) (n + 1)

/-- `⌈log₂ m⌉` as the least `n` with `m ≤ 2 ^ n`. -/
def ceilLog2 (m : Nat) : Nat := ceilLog2Aux m m 1 0

/-- Section count of `Indexer::create_multiple_embedding_sections`:
`((ratio + 1.0).log2().ceil() as usize).max(1)` with
`ratio = total_tokens / max_tokens`.  For rational `x ≥ 1`,
`⌈log₂ x⌉` is the least `n` with `x ≤ 2 ^ n`, i.e. `ceilLog2 ⌈x⌉`, and
`⌈(total + max) / max⌉ = (total + 2·max − 1) / max` in `Nat` division. -/
def num_sections_of (total_tokens max_tokens : Nat) : Nat :=
  max 1 (ceilLog2 ((total_tokens + 2 * max_tokens - 1) / max_tokens))

/-- `Indexer::create_multiple_embedding_sections`.
`(chunks_per_section as f64 * 0.2) as usize` equals
`chunks_per_section / 5` exactly (the f64 product of `k` and the
representation of 0.2 always truncates to `k / 5`), and
`saturating_sub` is `Nat` subtraction. -/
def create_multiple_embedding_sections (chunks : List Str) (max_tokens : Nat) :
    List Str :=
  if chunks.isEmpty then [[]]
  else
    let total_tokens := (chunks.map fun c => c.length / 4).sum
    let num_sections := num_sections_of total_tokens max_tokens
    if num_sections = 1 then [List.intercalate (str "\n\n") chunks]
    else
      let chunks_per_section := chunks.length / num_sections
      let overlap_chunks := chunks_per_section / 5
      let sections := (List.range num_sections).filterMap fun i =>
        let start_idx := if i = 0 then 0 else i * chunks_per_section - overlap_chunks
        let end_idx :=
          if i = num_sections - 1 then chunks.length
          else min ((i + 1) * chunks_per_section) chunks.length
        if start_idx < end_idx ∧ start_idx < chunks.length then
          some (List.intercalate (str "\n\n")
            ((chunks.drop start_idx).take (end_idx - start_idx)))
        else none
      if sections.isEmpty then [List.intercalate (str "\n\n") chunks] else sections

/-- `Indexer::should_index_metadata_only`. -/
def should_index_metadata_only (file_path : Str) : Bool :=
  let ext := lowerStr (extensionOf file_path)
  let config_extensions :=
    [str "json", str "yaml", str "yml", str "toml", str "ini", str "cfg",
     str "conf", str "properties", str "config"]
  let binary_extensions :=
    [str "exe", str "dll", str "jar", str "so", str "dylib", str "dll.a",
     str "dat", str "mca", str "rrf", str "igt", str "class"]
  let log_extensions := [str "log"]
  let image_extensions :=
    [str "jpg", str "jpeg", str "png", str "gif", str "bmp", str "webp",
     str "svg", str "ico", str "tiff", str "tif"]
  (config_extensions.any fun e => e = ext) ∨
  (binary_extensions.any fun e => e = ext) ∨
  (log_extensions.any fun e => e = ext) ∨
  (image_extensions.any fun e => e = ext)

/-- `Indexer::should_exclude_file`. -/
def should_exclude_file (file_path : Str) : Bool :=
  let file_name := lowerStr (fileNameOf file_path)
  let excluded_patterns := [str "config.js", str "index.html", str "aca.conf.ini"]
  if excluded_patterns.any fun pat => file_name = lowerStr pat then true
  else
    let excluded_extensions :=
      [str ".tmp", str ".crdownload", str ".part", str ".download",
       str ".partial", str ".lock", str ".swp", str ".~"]
    excluded_extensions.any fun e => e.isSuffixOf file_name

/-- `path.file_name().and_then(|n| n.to_str()).unwrap_or("unknown")`. -/
def fileNameOrUnknown (p : Str) : Str :=
  let n := fileNameOf p
  if n.isEmpty then str "unknown" else n

/-- `path.extension().and_then(|e| e.to_str()).unwrap_or("unknown")`. -/
def extensionOrUnknown (p : Str) : Str := (extensionOf? p).getD (str "unknown")

/-- The environment of the indexer: the filesystem walk (paths with
their `modified_time`/`file_size`), the parser registry
(`can_parse`/`extract_text`, `none` = extraction failure) and the
embedding service together with `bincode` (embedding calls are assumed
to succeed; per-file failures only skip writes and are irrelevant to
the claims below). -/
structure FsEnv where
  files : List (Str × Int × Int)
  can_parse : Str → Bool
  extract_text : Str → Option Str
  embed : Str → List ℚ
  ser : List ℚ → List Nat

/-- `std::fs::metadata(path)` under `FsEnv`:
`(modified_time, file_size)` of a walked file. -/
def FsEnv.metadataOf (env : FsEnv) (p : Str) : Option (Int × Int) :=
  (env.files.find? fun f => f.1 = p).map fun f => f.2

/-- `Indexer::index_file_metadata_only`. -/
def index_file_metadata_only (env : FsEnv) (st : StorageState) (file_path : Str) :
    StorageState × List WriteOp :=
  match env.metadataOf file_path with
  | none => (st, [])
  | some (modified_time, file_size) =>
    Storage.add_file_opt env.ser st
      ⟨0, file_path, fileNameOrUnknown file_path, file_size, modified_time,
        extensionOrUnknown file_path, 0, 0⟩ none

/-- `Indexer::index_file` (indexer.rs lines 223–361): route to
metadata-only on unsupported/unparsable/empty files, otherwise chunk,
pick the strategy by estimated token total, and persist one record —
or, above `4 · max_context_tokens`, one record per section with the
`#sectionK` path suffix. -/
def index_file (env : FsEnv) (config : AppConfig) (st : StorageState)
    (file_path : Str) : StorageState × List WriteOp :=
  if should_index_metadata_only file_path then
    index_file_metadata_only env st file_path
  else
    match env.extract_text file_path with
    | none => index_file_metadata_only env st file_path
    | some text =>
      if (trimStr text).isEmpty then index_file_metadata_only env st file_path
      else
        let chunks := chunk_text config.chunk_size text
        match env.metadataOf file_path with
        | none => (st, [])
        | some (modified_time, file_size) =>
          let file_name := fileNameOrUnknown file_path
          let file_type := extensionOrUnknown file_path
          let total_estimated_tokens := (chunks.map fun c => c.length / 4).sum
          let max_context := config.max_context_tokens
          let multiple_embedding_threshold := max_context * 4
          if total_estimated_tokens ≤ max_context then
            let combined_text := List.intercalate (str "\n\n") chunks
            let final_text :=
              if combined_text.length > max_context * 4 then
                combined_text.take (max_context * 4)
              else combined_text
            Storage.add_file env.ser st
              ⟨0, file_path, file_name, file_size, modified_time, file_type, 0, 0⟩
              (env.embed final_text)
          else if total_estimated_tokens ≤ multiple_embedding_threshold then
            let sampled_text := intelligent_chunk_sampling chunks max_context
            Storage.add_file env.ser st
              ⟨0, file_path, file_name, file_size, modified_time, file_type, 0, 0⟩
              (env.embed sampled_text)
          else
            let sections := create_multiple_embedding_sections chunks max_context
            sections.enum.foldl
              (fun acc si =>
                let section_path :=
                  if si.1 = 0 then file_path
                  else file_path ++ str "#section" ++ natToStr (si.1 + 1)
                let section_file_name :=
                  if si.1 = 0 then file_name
                  else file_name ++ str " (section " ++ natToStr (si.1 + 1) ++ str ")"
                let step := Storage.add_file env.ser acc.1
                  ⟨0, section_path, section_file_name, file_size, modified_time,
                    file_type, 0, 0⟩
                  (env.embed si.2)
                (step.1, acc.2 ++ step.2))
              (st, [])

/-- One file of the disk walk in `Indexer::perform_startup_scan`:
excluded files are skipped before the DB lookup; known unchanged files
are only removed from the pending map; changed or new supported files
are scheduled. -/
def scan_walk_step (env : FsEnv) (acc : List FileMetadata × List Str)
    (f : Str × Int × Int) : List FileMetadata × List Str :=
  let p := f.1
  if should_exclude_file p then acc
  else
    match acc.1.find? (fun m => m.file_path = p) with
    | some metadata =>
      let map' := acc.1.eraseP (fun m => m.file_path = p)
      if f.2.1 ≠ metadata.modified_time ∨ f.2.2 ≠ metadata.file_size then
        if should_index_metadata_only p ∨ env.can_parse p then (map', acc.2 ++ [p])
        else (map', acc.2)
      else (map', acc.2)
    | none =>
      if should_index_metadata_only p ∨ env.can_parse p then (acc.1, acc.2 ++ [p])
      else acc

/-- `Indexer::perform_startup_scan` (indexer.rs lines 641–769): walk
the disk against the DB snapshot, delete every DB record whose path was
not seen, then index the scheduled new/changed files sequentially.
Returns the final storage state and the log of all storage writes. -/
def perform_startup_scan (env : FsEnv) (config : AppConfig) (st : StorageState) :
    StorageState × List WriteOp :=
  if ¬ config.auto_index ∨ config.indexed_directories.isEmpty then (st, [])
  else
    let walked := env.files.foldl (scan_walk_step env) (st.get_all_files, [])
    let afterDeletes := walked.1.foldl
      (fun acc m =>
        let step := Storage.delete_file acc.1 m.file_path
        (step.1, acc.2 ++ step.2))
      (st, [])
    walked.2.foldl
      (fun acc p =>
        let step :=
          if should_index_metadata_only p then index_file_metadata_only env acc.1 p
          else index_file env config acc.1 p
        (step.1, acc.2 ++ step.2))
      afterDeletes

/- ## `src/query_parser.rs` -/

/-- The `date_tokens` array of
`QueryParser::has_explicit_date_tokens`. -/
def date_tokens : List Str :=
  [str "january", str "jan", str "february", str "feb", str "march", str "mar",
   str "april", str "apr", str "may", str "june", str "jun", str "july", str "jul",
   str "august", str "aug", str "september", str "sept", str "sep", str "october",
   str "oct", str "november", str "nov", str "december", str "dec",
   str "yesterday", str "today", str "tomorrow", str "last week", str "this week",
   str "next week", str "last month", str "this month", str "next month",
   str "last year", str "this year", str "next year", str "between", str "before",
   str "after", str "since", str "from", str "during", str "recent", str "recently",
   str "ago"]

/-- `word.trim_matches(|c: char| !c.is_ascii_digit())`. -/
def trimNonDigits (w : Str) : Str :=
  ((w.dropWhile fun c => ¬ c.isDigit).reverse.dropWhile fun c => ¬ c.isDigit).reverse

/-- `str::parse::<i32>()` on the trimmed word: succeeds exactly on a
non-empty all-digit string (a sign character can never survive
`trimNonDigits`). -/
def parseDigits? (w : Str) : Option Int :=
  if ¬ w.isEmpty ∧ w.all Char.isDigit then
    some (w.foldl (fun acc c => acc * 10 + ((c.toNat : Int) - 48)) 0)
  else none

/-- `QueryParser::has_explicit_date_tokens`. -/
def has_explicit_date_tokens (query : Str) : Bool :=
  let q := lowerStr query
  if date_tokens.any fun t => strContains q t then true
  else
    (splitWs q).any fun word =>
      decide (word.length = 4) &&
        match parseDigits? (trimNonDigits word) with
        | some year => decide (1900 ≤ year ∧ year ≤ 2100)
        | none => false

/-- The local calendar (`chrono::Local`), as data: the current
timestamp, year and month, and the timestamp materializations used by
the date-range construction (each `none` when the chrono chain of
`from_ymd_opt`/`and_hms_opt`/`single` fails). -/
structure Calendar where
  now_ts : Int
  current_year : Int
  current_month : Nat
  month_start : Int → Nat → Option Int
  month_end : Int → Nat → Option Int
  year_start : Int → Option Int
  year_end : Int → Option Int

/-- `QueryParser::is_future_date`. -/
def is_future_date (cal : Calendar) (month : Option Nat) (year : Option Int) : Bool :=
  match year with
  | some year_val =>
    if year_val > cal.current_year then true
    else if year_val = cal.current_year then
      match month with
      | some month_val => month_val > cal.current_month
      | none => false
    else false
  | none =>
    match month with
    | some month_val => month_val > cal.current_month
    | none => false

/-- `QueryParser::query_mentions_month`. -/
def query_mentions_month (query month_name : Str) : Bool :=
  let query_lower := lowerStr query
  let month_lower := lowerStr month_name
  strContains query_lower month_lower ∨
    strContains query_lower (str " " ++ month_lower) ∨
    strContains query_lower (month_lower ++ str " ")

/-- The `month_names` table of `QueryParser::parse_with_llm`
(full name, abbreviation; May has no abbreviation). -/
def month_names : List (Str × Str) :=
  [(str "january", str "jan"), (str "february", str "feb"), (str "march", str "mar"),
   (str "april", str "apr"), (str "may", []), (str "june", str "jun"),
   (str "july", str "jul"), (str "august", str "aug"), (str "september", str "sept"),
   (str "october", str "oct"), (str "november", str "nov"), (str "december", str "dec")]

/-- `i32::to_string`. -/
def intToStr (i : Int) : Str :=
  if i < 0 then '-' :: natToStr i.natAbs else natToStr i.natAbs

/-- The month-mention check duplicated at lines 425–441 and 462–476 of
`query_parser.rs`. -/
def month_explicitly_mentioned (query : Str) (month : Nat) : Bool :=
  if 0 < month ∧ month ≤ 12 then
    match month_names.get? (month - 1) with
    | some fullAb =>
      query_mentions_month query fullAb.1 ∨
        (¬ fullAb.2.isEmpty ∧ query_mentions_month query fullAb.2)
    | none => false
  else false

/-- `serde` image of the LLM's JSON `date_filter`. -/
structure LlmDateFilter where
  month : Option Nat
  year : Option Int
deriving DecidableEq, Repr

/-- `serde` image of the LLM's JSON reply (`LlmParsedQuery`). -/
structure LlmParsedQuery where
  search_query : Str
  date_filter : Option LlmDateFilter
  file_types : Option (List Str)
  folder_paths : Option (List Str)
deriving Repr

/-- `query_parser.rs::ParsedQuery`. -/
structure ParsedQuery where
  query : Str
  filters : FilterOptions
deriving Repr

/-- `QueryParser::parse_with_llm` from the successful deserialization
of the LLM reply onward (query_parser.rs lines 400–604): the
hallucinated-date guard, the future-date guard, the materialization of
the month/year range into timestamps (clamped to `now`), and the
assembly of the returned `ParsedQuery`. -/
def process_llm_result (cal : Calendar) (query : Str) (parsed0 : LlmParsedQuery) :
    ParsedQuery :=
  let parsed :=
    if parsed0.date_filter.isSome ∧ ¬ has_explicit_date_tokens query then
      { parsed0 with date_filter := none }
    else parsed0
  let filters0 : FilterOptions := ⟨none, none, none⟩
  let filters :=
    match parsed.date_filter with
    | none => filters0
    | some date_filter =>
      if date_filter.month.isSome ∨ date_filter.year.isSome then
        let is_future := is_future_date cal date_filter.month date_filter.year
        let allowed :=
          ¬ is_future ∨ (is_future ∧
            ((date_filter.month.isSome ∧
                month_explicitly_mentioned query (date_filter.month.getD 0)) ∨
             (date_filter.year.isSome ∧
                strContains query (intToStr (date_filter.year.getD 0)))))
        if allowed then
          let date_range0 : DateRange :=
            ⟨none, none, date_filter.month, date_filter.year.or (some cal.current_year)⟩
          let date_range :=
            match date_range0.month with
            | some month =>
              let year := date_range0.year.getD cal.current_year
              let end_date_ts :=
                match cal.month_end year month with
                | some ts => if ts > cal.now_ts then cal.now_ts else ts
                | none => cal.now_ts
              match cal.month_start year month with
              | some start_ts =>
                if start_ts ≤ cal.now_ts ∨ is_future then
                  { date_range0 with start := some start_ts, end_ := some end_date_ts }
                else date_range0
              | none => date_range0
            | none =>
              match date_range0.year with
              | some year =>
                let end_ts :=
                  match cal.year_end year with
                  | some ts => if ts > cal.now_ts then cal.now_ts else ts
                  | none => cal.now_ts
                match cal.year_start year with
                | some start_ts =>
                  if start_ts ≤ cal.now_ts ∨
                      (year > cal.current_year ∧ strContains query (intToStr year)) then
                    { date_range0 with start := some start_ts, end_ := some end_ts }
                  else date_range0
                | none => date_range0
              | none => date_range0
          if date_range.start.isSome ∨ date_range.end_.isSome then
            { filters0 with date_range := some date_range }
          else filters0
        else filters0
      else filters0
  let filters :=
    match parsed.file_types with
    | some file_types =>
      if ¬ file_types.isEmpty then { filters with file_types := some file_types }
      else filters
    | none => filters
  let filters :=
    match parsed.folder_paths with
    | some folder_paths =>
      if ¬ folder_paths.isEmpty then { filters with folder_paths := some folder_paths }
      else filters
    | none => filters
  ⟨trimStr parsed.search_query, filters⟩

/- ## Observation helpers and concrete fixtures used by the theorems -/

/-- The rows written by `INSERT OR REPLACE` within a write log. -/
def upsert_rows (ops : List WriteOp) : List FileMetadata :=
  ops.filterMap fun op =>
    match op with
    | .upsertRow r => some r
    | _ => none

/-- Section-record path of the k-th section (0-based), as built by
`index_file`. -/
def section_path (file_path : Str) (i : Nat) : Str :=
  if i = 0 then file_path else file_path ++ str "#section" ++ natToStr (i + 1)

/-- Section-record file name of the k-th section (0-based), as built by
`index_file`. -/
def section_name (file_name : Str) (i : Nat) : Str :=
  if i = 0 then file_name else file_name ++ str " (section " ++ natToStr (i + 1) ++ str ")"

/-- Fixture: an indexed text file with a stored vector. -/
def exMetaA : FileMetadata := ⟨1, str "dir/alpha.txt", str "alpha.txt", 1000, 50, str "txt", 0, 4⟩

/-- Fixture: a second indexed text file with a stored vector. -/
def exMetaB : FileMetadata := ⟨2, str "dir/beta.txt", str "beta.txt", 1000, 50, str "txt", 4, 4⟩

/-- Fixture: a metadata-only record (no vector). -/
def exMetaC : FileMetadata := ⟨3, str "dir/gamma.md", str "gamma.md", 1000, 50, str "md", 0, 0⟩

/-- Fixture: a small configuration (one indexed directory, one-word
chunks, `max_context_tokens = 2`; `config.rs` clamps nothing). -/
def exConfig : AppConfig := ⟨[str "d"], [], 1, 2, true, 100, false⟩

/-- Fixture: a server state over the two embedded records and one
vectorless record. -/
def exState : AppState :=
  ⟨exConfig, none, [(exMetaA, [1]), (exMetaB, [2])], [exMetaC],
   fun _ => some [1], fun _ => [0], fun _ _ => mkRat 1 2, fun _ => some [1], fun _ => none⟩

/-- Fixture: `exConfig` with `txt` globally excluded. -/
def exConfigX : AppConfig := ⟨[str "d"], [str "txt"], 1, 2, true, 100, false⟩

/-- Fixture: a server state over one embedded `txt` record under the
`txt`-excluding configuration. -/
def exStateX : AppState :=
  ⟨exConfigX, none, [(exMetaA, [1])], [], fun _ => some [1], fun _ => [0],
   fun _ _ => mkRat 1 2, fun _ => some [1], fun _ => none⟩

/-- Fixture: three records sharing one byte-identical stored vector. -/
def exDupA : FileMetadata := ⟨1, str "a.pdf", str "a.pdf", 1, 1, str "pdf", 0, 4⟩

/-- Fixture: duplicate-vector record with the middle path. -/
def exDupB : FileMetadata := ⟨2, str "b.pdf", str "b.pdf", 1, 1, str "pdf", 0, 4⟩

/-- Fixture: duplicate-vector record with the largest path. -/
def exDupC : FileMetadata := ⟨3, str "c.pdf", str "c.pdf", 1, 1, str "pdf", 0, 4⟩

/-- Fixture: a filesystem with one parsable nine-word text file whose
text estimates to 9 tokens (> 4 · max_context_tokens = 8 under
`exConfig`), so indexing it produces three section records. -/
def exScanEnv : FsEnv :=
  ⟨[(str "d/a.txt", 5, 100)], fun _ => true,
   fun _ => some (str "aaaa bbbb cccc dddd eeee ffff gggg hhhh iiii"),
   fun _ => [1], fun _ => [0, 0]⟩

/-- Fixture: a filesystem with one parsable file whose text is a single
80-character word: 20 estimated tokens, i.e. 10 · max_context_tokens
under `exConfig`, but only one chunk. -/
def exBigWordEnv : FsEnv :=
  ⟨[(str "d/big.txt", 5, 100)], fun _ => true,
   fun _ => some (List.replicate 80 'a'),
   fun _ => [1], fun _ => [0, 0]⟩

/-- Fixture: a trivial calendar (no chrono materializations needed by
the claims that use it). -/
def exCalendar : Calendar := ⟨0, 2024, 6, fun _ _ => none, fun _ _ => none, fun _ => none, fun _ => none⟩

/-- Fixture: a stored row whose blob slice is bytes 3..5. -/
def exRowOld : FileMetadata := ⟨7, str "x.txt", str "x.txt", 10, 20, str "txt", 3, 2⟩

/-- Fixture: an upsert for the same path with matching
`modified_time`/`file_size` and a vector serializing to 2 bytes. -/
def exRowNew : FileMetadata := ⟨0, str "x.txt", str "x.txt", 10, 20, str "txt", 0, 0⟩

/-- Fixture: a storage state holding `exRowOld` and a 5-byte blob. -/
def exStore : StorageState := ⟨[exRowOld], [1, 2, 3, 4, 5]⟩

deriving instance DecidableEq for Except

/- ## Helper lemmas -/

theorem lowerStr_eq_nil {s : Str} : lowerStr s = [] ↔ s = [] := by
  simp [lowerStr]

theorem strContains_nil {needle : Str} (h : needle ≠ []) :
    strContains [] needle = false := by
  cases needle with
  | nil => exact absurd rfl h
  | cons c t => rfl

theorem splitOnPred_nil (p : Char → Bool) : splitOnPred p [] = [] := rfl

/- ## C9 -/

/-- C9 (counterexample): the claim also asserts
`filename_similarity(s, "") = 0` for the empty `s`, but on the empty
query and empty filename the code takes the exact case-insensitive
equality branch and returns 1.0. -/
theorem C9_counterexample :
    filename_similarity [] [] = 1 ∧ ¬ filename_similarity [] [] = 0 := by
  constructor
  · rfl
  · intro h
    exact absurd h (by decide)

/-- C9 (amended): `filename_similarity(s, s) = 1` for every string `s`,
and `filename_similarity(s, "") = 0 = filename_similarity("", s)` for
every non-empty `s` (at `s = ""` both calls hit the exact-match branch
and return 1). -/
theorem C9_filename_similarity_spec (s : Str) :
    filename_similarity s s = 1 ∧
      (s ≠ [] → filename_similarity s [] = 0 ∧ filename_similarity [] s = 0) := by
  constructor
  · simp [filename_similarity]
  · intro hs
    have hq : lowerStr s ≠ [] := fun hh => hs (lowerStr_eq_nil.mp hh)
    constructor
    · have h1 : ¬ ((lowerStr [] : Str) = lowerStr s) := by
        simpa [lowerStr] using Ne.symm hq
      have h2 : strContains (lowerStr ([] : Str)) (lowerStr s) = false := by
        simpa [lowerStr] using strContains_nil hq
      simp only [filename_similarity, lowerStr, List.map_nil] at *
      rw [if_neg h1, if_neg (by simp [h2])]
      by_cases hw : (splitWs (List.map Char.toLower s)).isEmpty
      · simp [hw]
      · simp [hw, splitOnPred_nil]
    · have h1 : ¬ (lowerStr s = lowerStr ([] : Str)) := by
        simpa [lowerStr] using hq
      simp only [filename_similarity, lowerStr, List.map_nil] at *
      rw [if_neg h1, if_neg (by simp)]
      simp [splitWs, splitOnPred_nil]

/-- C9 (witness): the amended statement at the concrete string "ab". -/
theorem C9_witness :
    filename_similarity (str "ab") (str "ab") = 1 ∧
      (filename_similarity (str "ab") [] = 0 ∧ filename_similarity [] (str "ab") = 0) :=
  ⟨(C9_filename_similarity_spec (str "ab")).1,
   (C9_filename_similarity_spec (str "ab")).2 (by decide)⟩

/- ## C2 -/

/-- C2 (counterexample): the code computes
`request.limit.unwrap_or(default).min(200)` with no lower clamp, so a
request with `limit = 0` has effective limit 0, not 1: the handler
returns no results even though the same state returns one result when
`limit = 1`. -/
theorem C2_counterexample :
    effective_limit (some 0) exConfig = 0 ∧
      search_files exState ⟨str "alpha", some 0, none⟩ = .ok [] ∧
      (search_files exState ⟨str "alpha", some 1, none⟩).map List.length = .ok 1 := by
  refine ⟨rfl, by decide, by decide⟩

/-- C2 (amended): the effective limit of `/api/search` is the requested
limit capped above at 200 (no lower clamp: a requested limit of 0
yields the empty result list), defaulting to the configured
`max_search_results` capped at 200 when the request carries no limit. -/
theorem C2_effective_limit_spec (st : AppState) (request : SearchRequest)
    (out : List SearchResult) (h : search_files st request = .ok out) :
    out.length ≤ effective_limit request.limit st.config ∧
      (request.limit = some 0 → out = []) ∧
      (∀ n, request.limit = some n → out.length ≤ min n 200) ∧
      (request.limit = none → out.length ≤ min st.config.max_search_results 200) := by
  unfold search_files at h
  by_cases hq : (trimStr request.query).isEmpty
  · rw [if_pos hq] at h
    exact absurd h (by simp)
  · rw [if_neg hq] at h
    cases hemb : st.embed_query (trimStr request.query) with
    | none => rw [hemb] at h; exact absurd h (by simp)
    | some qe =>
      rw [hemb] at h
      have hout := Except.ok.inj h
      have hlen : out.length ≤ effective_limit request.limit st.config := by
        rw [← hout]
        calc (List.map _ (List.take (effective_limit request.limit st.config) _)).length
            = (List.take (effective_limit request.limit st.config) _).length := by
              rw [List.length_map]
          _ ≤ effective_limit request.limit st.config := by
              rw [List.length_take]; exact min_le_left _ _
      refine ⟨hlen, ?_, ?_, ?_⟩
      · intro h0
        rw [← hout, h0]
        simp [effective_limit]
      · intro n hn
        have : effective_limit request.limit st.config = min n 200 := by
          simp [effective_limit, hn]
        exact this ▸ hlen
      · intro hn
        have : effective_limit request.limit st.config =
            min st.config.max_search_results 200 := by
          simp [effective_limit, hn]
        exact this ▸ hlen

/-- C2 (witness): the amended statement at a concrete state and
request. -/
theorem C2_witness :
    ([] : List SearchResult).length ≤ effective_limit (some 0) exState.config ∧
      (some 0 = some 0 → ([] : List SearchResult) = []) ∧
      (∀ n, some 0 = some n → ([] : List SearchResult).length ≤ min n 200) ∧
      (some 0 = (none : Option Nat) →
        ([] : List SearchResult).length ≤ min exState.config.max_search_results 200) :=
  C2_effective_limit_spec exState ⟨str "alpha", some 0, none⟩ [] (by decide)

/- ## C6 -/

/-- C6: if the original query contains no explicit date token, any
`date_filter` carried by the LLM reply is discarded, and the returned
`ParsedQuery` has no date range. -/
theorem C6_llm_date_filter_guard (cal : Calendar) (query : Str)
    (parsed : LlmParsedQuery) (df : LlmDateFilter)
    (hdf : parsed.date_filter = some df)
    (hno : has_explicit_date_tokens query = false) :
    (process_llm_result cal query parsed).filters.date_range = none := by
  unfold process_llm_result
  have hguard : (parsed.date_filter.isSome = true ∧ ¬ has_explicit_date_tokens query = true) :=
    ⟨by simp [hdf], by simp [hno]⟩
  rw [if_pos hguard]
  rcases parsed with ⟨sq, dfo, fto, fpo⟩
  rcases fto with _ | fts <;> rcases fpo with _ | fps <;>
      dsimp only [] <;> split_ifs <;> rfl

/-- C6 (witness): the guard at a concrete query without date tokens and
an LLM reply hallucinating December 2024. -/
theorem C6_witness :
    (process_llm_result exCalendar (str "zzzz stuff")
        ⟨str "zzzz stuff", some ⟨some 12, some 2024⟩, none, none⟩).filters.date_range = none :=
  C6_llm_date_filter_guard exCalendar (str "zzzz stuff")
    ⟨str "zzzz stuff", some ⟨some 12, some 2024⟩, none, none⟩
    ⟨some 12, some 2024⟩ rfl (by decide)

/- ## C7 -/

theorem find?_filter_append_self (files : List FileMetadata) (row : FileMetadata) :
    ((files.filter fun f => f.file_path ≠ row.file_path) ++ [row]).find?
        (fun f => f.file_path = row.file_path) = some row := by
  rw [List.find?_append]
  have h1 : (files.filter fun f => f.file_path ≠ row.file_path).find?
      (fun f => f.file_path = row.file_path) = none := by
    apply List.find?_eq_none.mpr
    intro x hx
    have hne := (List.mem_filter.mp hx).2
    simpa using hne
  rw [h1]
  simp [List.find?]

theorem add_file_eq_of_none (ser : List ℚ → List Nat) (st : StorageState)
    (metadata : FileMetadata) (embedding : List ℚ)
    (h : st.get_file_metadata metadata.file_path = none) :
    Storage.add_file ser st metadata embedding =
      (⟨(st.files.filter fun f => f.file_path ≠ metadata.file_path) ++
          [{ metadata with embedding_offset := (st.blob.length : Int),
                           embedding_length := ((ser embedding).length : Int) }],
        st.blob ++ ser embedding⟩,
       [.appendBlob (ser embedding),
        .upsertRow { metadata with embedding_offset := (st.blob.length : Int),
                                   embedding_length := ((ser embedding).length : Int) }]) := by
  unfold Storage.add_file
  rw [h]

theorem add_file_eq_of_matching (ser : List ℚ → List Nat) (st : StorageState)
    (metadata existing : FileMetadata) (embedding : List ℚ)
    (h : st.get_file_metadata metadata.file_path = some existing)
    (ht : existing.modified_time = metadata.modified_time ∧
        existing.file_size = metadata.file_size ∧
        existing.embedding_length = ((ser embedding).length : Int)) :
    Storage.add_file ser st metadata embedding =
      (st.replaceRow { metadata with embedding_offset := existing.embedding_offset,
                                     embedding_length := existing.embedding_length },
       [.upsertRow { metadata with embedding_offset := existing.embedding_offset,
                                   embedding_length := existing.embedding_length }]) := by
  unfold Storage.add_file
  rw [h]
  dsimp only []
  rw [if_pos ht]

theorem add_file_eq_of_changed (ser : List ℚ → List Nat) (st : StorageState)
    (metadata existing : FileMetadata) (embedding : List ℚ)
    (h : st.get_file_metadata metadata.file_path = some existing)
    (ht : ¬ (existing.modified_time = metadata.modified_time ∧
        existing.file_size = metadata.file_size ∧
        existing.embedding_length = ((ser embedding).length : Int))) :
    Storage.add_file ser st metadata embedding =
      (⟨(st.files.filter fun f => f.file_path ≠ metadata.file_path) ++
          [{ metadata with embedding_offset := (st.blob.length : Int),
                           embedding_length := ((ser embedding).length : Int) }],
        st.blob ++ ser embedding⟩,
       [.appendBlob (ser embedding),
        .upsertRow { metadata with embedding_offset := (st.blob.length : Int),
                                   embedding_length := ((ser embedding).length : Int) }]) := by
  unfold Storage.add_file
  rw [h]
  dsimp only []
  rw [if_neg ht]

/-- C7: `Storage::add_file` never rewrites existing blob bytes (the old
blob is always a prefix of the new one); when a prior row for the path
has identical `modified_time`, `file_size` and serialized byte length,
the blob is left completely unchanged (no append is even logged) and
the rewritten row keeps the existing offset/length; in every other case
the serialized vector is appended at the current end of the blob and
the rewritten row points at the newly appended slice. -/
theorem C7_add_file_blob_discipline (ser : List ℚ → List Nat) (st : StorageState)
    (metadata : FileMetadata) (embedding : List ℚ) :
    st.blob <+: (Storage.add_file ser st metadata embedding).1.blob ∧
    (∀ existing, st.get_file_metadata metadata.file_path = some existing →
      ((existing.modified_time = metadata.modified_time ∧
          existing.file_size = metadata.file_size ∧
          existing.embedding_length = ((ser embedding).length : Int)) →
        (Storage.add_file ser st metadata embedding).1.blob = st.blob ∧
        (∀ bytes, WriteOp.appendBlob bytes ∉ (Storage.add_file ser st metadata embedding).2) ∧
        (Storage.add_file ser st metadata embedding).1.get_file_metadata metadata.file_path =
          some { metadata with embedding_offset := existing.embedding_offset,
                               embedding_length := existing.embedding_length }) ∧
      (¬ (existing.modified_time = metadata.modified_time ∧
          existing.file_size = metadata.file_size ∧
          existing.embedding_length = ((ser embedding).length : Int)) →
        (Storage.add_file ser st metadata embedding).1.blob = st.blob ++ ser embedding ∧
        (Storage.add_file ser st metadata embedding).1.get_file_metadata metadata.file_path =
          some { metadata with embedding_offset := (st.blob.length : Int),
                               embedding_length := ((ser embedding).length : Int) })) ∧
    (st.get_file_metadata metadata.file_path = none →
      (Storage.add_file ser st metadata embedding).1.blob = st.blob ++ ser embedding ∧
      (Storage.add_file ser st metadata embedding).1.get_file_metadata metadata.file_path =
        some { metadata with embedding_offset := (st.blob.length : Int),
                             embedding_length := ((ser embedding).length : Int) }) := by
  cases hfind : st.get_file_metadata metadata.file_path with
  | none =>
    rw [add_file_eq_of_none ser st metadata embedding hfind]
    refine ⟨List.prefix_append _ _, ?_, ?_⟩
    · intro existing hex
      exact absurd hex (by simp)
    · intro _
      exact ⟨rfl, find?_filter_append_self st.files
        { metadata with embedding_offset := (st.blob.length : Int),
                        embedding_length := ((ser embedding).length : Int) }⟩
  | some existing =>
    by_cases htriple : existing.modified_time = metadata.modified_time ∧
        existing.file_size = metadata.file_size ∧
        existing.embedding_length = ((ser embedding).length : Int)
    · rw [add_file_eq_of_matching ser st metadata existing embedding hfind htriple]
      refine ⟨List.prefix_refl _, ?_, ?_⟩
      · intro ex hex
        have hexeq : existing = ex := Option.some.inj hex
        subst hexeq
        refine ⟨fun _ => ⟨rfl, ?_, ?_⟩, fun h => absurd htriple h⟩
        · intro bytes hmem
          simp at hmem
        · exact find?_filter_append_self st.files
            { metadata with embedding_offset := existing.embedding_offset,
                            embedding_length := existing.embedding_length }
      · intro hnone
        exact absurd hnone (by simp)
    · rw [add_file_eq_of_changed ser st metadata existing embedding hfind htriple]
      refine ⟨List.prefix_append _ _, ?_, ?_⟩
      · intro ex hex
        have hexeq : existing = ex := Option.some.inj hex
        subst hexeq
        exact ⟨fun h => absurd h htriple,
          fun _ => ⟨rfl, find?_filter_append_self st.files
            { metadata with embedding_offset := (st.blob.length : Int),
                            embedding_length := ((ser embedding).length : Int) }⟩⟩
      · intro hnone
        exact absurd hnone (by simp)

/-- C7 (witness): with a matching prior row the blob stays `[1..5]`, no
append is logged, and the row keeps offset 3 / length 2. -/
theorem C7_witness :
    (Storage.add_file (fun _ => [9, 9]) exStore exRowNew [1]).1.blob = exStore.blob ∧
    (∀ bytes, WriteOp.appendBlob bytes ∉ (Storage.add_file (fun _ => [9, 9]) exStore exRowNew [1]).2) ∧
    (Storage.add_file (fun _ => [9, 9]) exStore exRowNew [1]).1.get_file_metadata exRowNew.file_path =
      some { exRowNew with embedding_offset := exRowOld.embedding_offset,
                           embedding_length := exRowOld.embedding_length } :=
  ((C7_add_file_blob_discipline (fun _ => [9, 9]) exStore exRowNew [1]).2.1 exRowOld
    (by decide)).1 (by decide)

/- ## C10 -/

theorem listSwap_mem {α : Type} {l : List α} {i j : Nat} {x : α}
    (h : x ∈ listSwap l i j) : x ∈ l := by
  unfold listSwap at h
  cases hi : l.get? i with
  | none => rw [hi] at h; cases hj : l.get? j <;> rw [hj] at h <;> exact h
  | some a =>
    rw [hi] at h
    cases hj : l.get? j with
    | none => rw [hj] at h; exact h
    | some b =>
      rw [hj] at h
      rcases List.mem_or_eq_of_mem_set h with h1 | h1
      · rcases List.mem_or_eq_of_mem_set h1 with h2 | h2
        · exact h2
        · exact h2 ▸ List.get?_mem hj
      · exact h1 ▸ List.get?_mem hi

theorem listSwap_length {α : Type} (l : List α) (i j : Nat) :
    (listSwap l i j).length = l.length := by
  unfold listSwap
  cases l.get? i <;> cases l.get? j <;> simp

theorem hnsw_add_ok_wf {idx idx' : HnswIndex} {v : List ℚ} {m : FileMetadata}
    (hwf : idx.WF) (h : idx.add v m = .ok idx') : idx'.WF := by
  unfold HnswIndex.add at h
  by_cases hd : v.length ≠ idx.dimensions
  · rw [if_pos hd] at h; exact absurd h (by simp)
  · rw [if_neg hd] at h
    have hidx := Except.ok.inj h
    push_neg at hd
    subst hidx
    constructor
    · simpa using hwf.1
    · intro w hw
      rcases List.mem_append.mp hw with h1 | h1
      · exact hwf.2 w h1
      · rw [List.mem_singleton.mp h1]
        exact hd

theorem hnsw_add_dimensions {idx idx' : HnswIndex} {v : List ℚ} {m : FileMetadata}
    (h : idx.add v m = .ok idx') : idx'.dimensions = idx.dimensions := by
  unfold HnswIndex.add at h
  by_cases hd : v.length ≠ idx.dimensions
  · rw [if_pos hd] at h; exact absurd h (by simp)
  · rw [if_neg hd] at h
    have hidx := Except.ok.inj h
    subst hidx
    rfl

theorem hnsw_rebuild_fold_wf (pairs : List (FileMetadata × List ℚ)) (acc : HnswIndex)
    (hwf : acc.WF) :
    (pairs.foldl
      (fun acc p =>
        match acc.add p.2 p.1 with
        | .ok a => a
        | .error _ => acc)
      acc).WF := by
  induction pairs generalizing acc with
  | nil => exact hwf
  | cons p rest ih =>
    simp only [List.foldl_cons]
    cases hstep : acc.add p.2 p.1 with
    | ok a => exact ih a (hnsw_add_ok_wf hwf hstep)
    | error e => exact ih acc hwf

theorem hnsw_rebuild_fold_dimensions (pairs : List (FileMetadata × List ℚ))
    (acc : HnswIndex) :
    (pairs.foldl
      (fun acc p =>
        match acc.add p.2 p.1 with
        | .ok a => a
        | .error _ => acc)
      acc).dimensions = acc.dimensions := by
  induction pairs generalizing acc with
  | nil => rfl
  | cons p rest ih =>
    simp only [List.foldl_cons]
    cases hstep : acc.add p.2 p.1 with
    | ok a => rw [ih a, hnsw_add_dimensions hstep]
    | error e => exact ih acc

theorem hnsw_clear_wf (idx : HnswIndex) : idx.clear.WF := by
  constructor <;> simp [HnswIndex.clear]

/-- C10: the parallel-array invariant (`embeddings` and `metadata_list`
have equal length, every stored vector has the index's dimensionality)
holds after `new`, is preserved by `add` (which rejects mismatched
dimensions with an error), by `remove` (swap-with-last by `file_path`),
by `clear` and by `rebuild_from_embeddings`; `rebuild_from_embeddings`
moreover reinitializes `dimensions` whenever the first supplied
vector's length differs. -/
theorem C10_hnsw_invariants :
    (∀ d, (HnswIndex.new d).WF) ∧
    (∀ (idx idx' : HnswIndex) v m, idx.WF → idx.add v m = .ok idx' → idx'.WF) ∧
    (∀ (idx : HnswIndex) v m, v.length ≠ idx.dimensions →
      idx.add v m = .error (str "Embedding dimension mismatch")) ∧
    (∀ (idx : HnswIndex) p, idx.WF → (idx.remove p).WF) ∧
    (∀ idx : HnswIndex, idx.clear.WF) ∧
    (∀ (idx : HnswIndex) pairs, (idx.rebuild_from_embeddings pairs).WF) ∧
    (∀ (idx : HnswIndex) m0 v0 rest, v0.length ≠ idx.dimensions →
      (idx.rebuild_from_embeddings ((m0, v0) :: rest)).dimensions = v0.length) := by
  refine ⟨?_, ?_, ?_, ?_, ?_, ?_, ?_⟩
  · intro d
    exact ⟨rfl, by simp [HnswIndex.new]⟩
  · intro idx idx' v m hwf h
    exact hnsw_add_ok_wf hwf h
  · intro idx v m hd
    unfold HnswIndex.add
    rw [if_pos hd]
  · intro idx p hwf
    unfold HnswIndex.remove
    cases hfi : idx.metadata_list.findIdx? (fun m => m.file_path = p) with
    | none => exact hwf
    | some i =>
      dsimp only []
      constructor
      · by_cases hil : i ≠ idx.embeddings.length - 1
        · rw [if_pos hil, if_pos hil, List.length_dropLast, List.length_dropLast,
            listSwap_length, listSwap_length, hwf.1]
        · rw [if_neg hil, if_neg hil, List.length_dropLast, List.length_dropLast, hwf.1]
      · intro w hw
        have hw1 := List.dropLast_sublist _ |>.mem hw
        by_cases hil : i ≠ idx.embeddings.length - 1
        · rw [if_pos hil] at hw1
          exact hwf.2 w (listSwap_mem hw1)
        · rw [if_neg hil] at hw1
          exact hwf.2 w hw1
  · exact hnsw_clear_wf
  · intro idx pairs
    unfold HnswIndex.rebuild_from_embeddings
    cases pairs with
    | nil => exact hnsw_clear_wf idx
    | cons p rest =>
      apply hnsw_rebuild_fold_wf
      by_cases hd : p.2.length ≠ idx.dimensions
      · rw [if_pos hd]
        exact ⟨rfl, by simp [HnswIndex.new]⟩
      · rw [if_neg hd]
        exact hnsw_clear_wf idx
  · intro idx m0 v0 rest hd
    unfold HnswIndex.rebuild_from_embeddings
    rw [hnsw_rebuild_fold_dimensions]
    rw [if_pos hd]
    rfl

/-- C10 (witness): the invariant parts applied at a concrete
one-vector index. -/
theorem C10_witness :
    (HnswIndex.new 1).WF ∧
    HnswIndex.WF ⟨[[1]], [exMetaA], [(1, 0)], 1⟩ ∧
    ((⟨[[1]], [exMetaA], [(1, 0)], 1⟩ : HnswIndex).remove (str "dir/alpha.txt")).WF ∧
    ((⟨[[1]], [exMetaA], [(1, 0)], 1⟩ : HnswIndex).rebuild_from_embeddings
      [(exMetaB, [1, 2])]).dimensions = 2 :=
  ⟨C10_hnsw_invariants.1 1,
   ⟨rfl, by decide⟩,
   C10_hnsw_invariants.2.2.2.1 ⟨[[1]], [exMetaA], [(1, 0)], 1⟩ (str "dir/alpha.txt")
     ⟨rfl, by decide⟩,
   C10_hnsw_invariants.2.2.2.2.2.2 ⟨[[1]], [exMetaA], [(1, 0)], 1⟩ exMetaB [1, 2] []
     (by decide)⟩

/- ## C3 -/

theorem strLt_irrefl (s : Str) : strLt s s = false := by
  induction s with
  | nil => rfl
  | cons c t ih => simp [strLt, ih]

theorem strLt_asymm {a b : Str} (h : strLt a b = true) : strLt b a = false := by
  induction a generalizing b with
  | nil =>
    cases b with
    | nil => simp [strLt] at h
    | cons c t => rfl
  | cons c t ih =>
    cases b with
    | nil => simp [strLt] at h
    | cons d u =>
      simp only [strLt] at h ⊢
      by_cases h1 : c.val < d.val
      · have h2 : ¬ d.val < c.val := by
          simp only [UInt32.lt_def] at h1 ⊢
          exact Nat.lt_asymm h1
        simp [h1, h2]
      · by_cases h2 : d.val < c.val
        · simp [h1, h2] at h
        · simp only [h1, h2, if_false] at h ⊢
          exact ih h

theorem strLt_ne {a b : Str} (h : strLt a b = true) : a ≠ b := by
  intro he
  subst he
  rw [strLt_irrefl] at h
  exact absurd h (by simp)

theorem dedup_insert_mem {seen : List (DedupKey × (FileMetadata × ℚ))} {k : DedupKey}
    {v : FileMetadata × ℚ} {e : DedupKey × (FileMetadata × ℚ)}
    (h : e ∈ dedup_insert seen k v) : e ∈ seen ∨ e = (k, v) := by
  induction seen with
  | nil =>
    simp only [dedup_insert] at h
    right
    simpa using h
  | cons hd tl ih =>
    obtain ⟨k0, w0⟩ := hd
    simp only [dedup_insert] at h
    by_cases hk : k0 = k
    · rw [if_pos hk] at h
      by_cases hlt : strLt v.1.file_path w0.1.file_path = true
      · rw [if_pos hlt] at h
        rcases List.mem_cons.mp h with h1 | h1
        · right; rw [h1, hk]
        · left; exact List.mem_cons_of_mem _ h1
      · rw [if_neg hlt] at h
        left; exact h
    · rw [if_neg hk] at h
      rcases List.mem_cons.mp h with h1 | h1
      · left; rw [h1]; exact List.mem_cons_self _ _
      · rcases ih h1 with h2 | h2
        · left; exact List.mem_cons_of_mem _ h2
        · right; exact h2

theorem dedup_insert_find_none {seen : List (DedupKey × (FileMetadata × ℚ))}
    {k : DedupKey} (v : FileMetadata × ℚ)
    (h : seen.find? (fun e => e.1 = k) = none) :
    (dedup_insert seen k v).find? (fun e => e.1 = k) = some (k, v) := by
  induction seen with
  | nil => simp [dedup_insert, List.find?]
  | cons hd tl ih =>
    obtain ⟨k0, w0⟩ := hd
    have hk0 : ¬ (k0 = k) := by
      intro hk
      have := List.find?_eq_none.mp h (k0, w0) (List.mem_cons_self _ _)
      simp [hk] at this
    have htl : tl.find? (fun e => e.1 = k) = none :=
      List.find?_eq_none.mpr fun x hx => List.find?_eq_none.mp h x (List.mem_cons_of_mem _ hx)
    simp only [dedup_insert]
    rw [if_neg hk0]
    rw [List.find?_cons_of_neg _ (by simp [hk0])]
    exact ih htl

theorem dedup_insert_find_some {seen : List (DedupKey × (FileMetadata × ℚ))}
    {k : DedupKey} {w : FileMetadata × ℚ} (v : FileMetadata × ℚ)
    (h : seen.find? (fun e => e.1 = k) = some (k, w)) :
    (dedup_insert seen k v).find? (fun e => e.1 = k) =
      some (k, if strLt v.1.file_path w.1.file_path = true then v else w) := by
  induction seen with
  | nil => simp [List.find?] at h
  | cons hd tl ih =>
    obtain ⟨k0, w0⟩ := hd
    by_cases hk0 : k0 = k
    · subst hk0
      rw [List.find?_cons_of_pos _ (by simp)] at h
      have hw0 : w0 = w := congrArg Prod.snd (Option.some.inj h)
      simp only [dedup_insert]
      rw [if_pos trivial]
      by_cases hlt : strLt v.1.file_path w0.1.file_path = true
      · rw [if_pos hlt]
        rw [List.find?_cons_of_pos _ (by simp)]
        rw [hw0] at hlt
        rw [if_pos hlt]
      · rw [if_neg hlt]
        rw [List.find?_cons_of_pos _ (by simp)]
        rw [hw0] at hlt
        rw [if_neg hlt, hw0]
    · rw [List.find?_cons_of_neg _ (by simp [hk0])] at h
      simp only [dedup_insert]
      rw [if_neg hk0]
      rw [List.find?_cons_of_neg _ (by simp [hk0])]
      exact ih h

theorem dedup_insert_find_other {seen : List (DedupKey × (FileMetadata × ℚ))}
    {k k' : DedupKey} (v : FileMetadata × ℚ) (hkk : k' ≠ k) :
    (dedup_insert seen k v).find? (fun e => e.1 = k') =
      seen.find? (fun e => e.1 = k') := by
  induction seen with
  | nil =>
    simp only [dedup_insert]
    rw [List.find?_cons_of_neg _ (by simp [hkk.symm])]
  | cons hd tl ih =>
    obtain ⟨k0, w0⟩ := hd
    simp only [dedup_insert]
    by_cases hk0 : k0 = k
    · rw [if_pos hk0]
      have hk0' : ¬ (k0 = k') := fun hh => hkk (hh ▸ hk0)
      by_cases hlt : strLt v.1.file_path w0.1.file_path = true
      · rw [if_pos hlt]
        rw [List.find?_cons_of_neg _ (by simp [hk0']),
            List.find?_cons_of_neg _ (by simp [hk0'])]
      · rw [if_neg hlt]
    · rw [if_neg hk0]
      by_cases hk0' : k0 = k'
      · rw [List.find?_cons_of_pos _ (by simp [hk0']),
            List.find?_cons_of_pos _ (by simp [hk0'])]
      · rw [List.find?_cons_of_neg _ (by simp [hk0']),
            List.find?_cons_of_neg _ (by simp [hk0'])]
        exact ih

theorem dedup_insert_keys_nodup {seen : List (DedupKey × (FileMetadata × ℚ))}
    {k : DedupKey} (v : FileMetadata × ℚ)
    (h : (seen.map Prod.fst).Nodup) :
    ((dedup_insert seen k v).map Prod.fst).Nodup := by
  induction seen with
  | nil => simp [dedup_insert]
  | cons hd tl ih =>
    obtain ⟨k0, w0⟩ := hd
    rw [List.map_cons, List.nodup_cons] at h
    simp only [dedup_insert]
    by_cases hk0 : k0 = k
    · rw [if_pos hk0]
      by_cases hlt : strLt v.1.file_path w0.1.file_path = true
      · rw [if_pos hlt, List.map_cons, List.nodup_cons]
        exact h
      · rw [if_neg hlt, List.map_cons, List.nodup_cons]
        exact h
    · rw [if_neg hk0, List.map_cons, List.nodup_cons]
      refine ⟨?_, ih h.2⟩
      intro hmem
      rcases List.mem_map.mp hmem with ⟨e, he, hfst⟩
      rcases dedup_insert_mem he with h1 | h1
      · exact h.1 (List.mem_map.mpr ⟨e, h1, hfst⟩)
      · rw [h1] at hfst
        exact hk0 hfst.symm

theorem mem_key_unique {seen : List (DedupKey × (FileMetadata × ℚ))}
    {k : DedupKey} {x w : FileMetadata × ℚ}
    (hmem : (k, x) ∈ seen) (hnd : (seen.map Prod.fst).Nodup)
    (hfind : seen.find? (fun e => e.1 = k) = some (k, w)) : x = w := by
  induction seen with
  | nil => simp at hmem
  | cons hd tl ih =>
    obtain ⟨k0, w0⟩ := hd
    rw [List.map_cons, List.nodup_cons] at hnd
    by_cases hk0 : k0 = k
    · subst hk0
      rw [List.find?_cons_of_pos _ (by simp)] at hfind
      have hw0 : w0 = w := congrArg Prod.snd (Option.some.inj hfind)
      rcases List.mem_cons.mp hmem with h1 | h1
      · exact (congrArg Prod.snd h1).trans hw0
      · exact absurd (List.mem_map.mpr ⟨(k0, x), h1, rfl⟩) hnd.1
    · rw [List.find?_cons_of_neg _ (by simp [hk0])] at hfind
      rcases List.mem_cons.mp hmem with h1 | h1
      · exact absurd (congrArg Prod.fst h1).symm hk0
      · exact ih h1 hnd.2 hfind

theorem dedup_fold_snd (g : FileMetadata → Option (List ℚ)) (s : List ℚ → DedupKey) :
    ∀ (l : List (FileMetadata × ℚ)) (seen : List (DedupKey × (FileMetadata × ℚ)))
      (w : List (FileMetadata × ℚ)),
    (l.foldl (dedup_step g s) (seen, w)).2 = w ++ l.filter (fun r => (g r.1).isNone) := by
  intro l
  induction l with
  | nil => intro seen w; simp
  | cons r t ih =>
    intro seen w
    rw [List.foldl_cons]
    cases hg : g r.1 with
    | none =>
      have hstep : dedup_step g s (seen, w) r = (seen, w ++ [r]) := by
        unfold dedup_step; rw [hg]
      rw [hstep, ih]
      rw [List.filter_cons]
      simp [hg]
    | some emb =>
      have hstep : dedup_step g s (seen, w) r = (dedup_insert seen (s emb) r, w) := by
        unfold dedup_step; rw [hg]
      rw [hstep, ih]
      rw [List.filter_cons]
      simp [hg]

theorem dedup_fold_key_inv (g : FileMetadata → Option (List ℚ)) (s : List ℚ → DedupKey) :
    ∀ (l : List (FileMetadata × ℚ)) (seen : List (DedupKey × (FileMetadata × ℚ)))
      (w : List (FileMetadata × ℚ)),
    (∀ e ∈ seen, ∃ emb, g e.2.1 = some emb ∧ s emb = e.1) →
    ∀ e ∈ (l.foldl (dedup_step g s) (seen, w)).1,
      ∃ emb, g e.2.1 = some emb ∧ s emb = e.1 := by
  intro l
  induction l with
  | nil => intro seen w hseen e he; exact hseen e he
  | cons r t ih =>
    intro seen w hseen
    rw [List.foldl_cons]
    cases hg : g r.1 with
    | none =>
      have hstep : dedup_step g s (seen, w) r = (seen, w ++ [r]) := by
        unfold dedup_step; rw [hg]
      rw [hstep]
      exact ih seen (w ++ [r]) hseen
    | some emb =>
      have hstep : dedup_step g s (seen, w) r = (dedup_insert seen (s emb) r, w) := by
        unfold dedup_step; rw [hg]
      rw [hstep]
      apply ih
      intro e he
      rcases dedup_insert_mem he with h1 | h1
      · exact hseen e h1
      · refine ⟨emb, ?_, ?_⟩
        · rw [h1]; exact hg
        · rw [h1]

theorem dedup_fold_keys_nodup (g : FileMetadata → Option (List ℚ)) (s : List ℚ → DedupKey) :
    ∀ (l : List (FileMetadata × ℚ)) (seen : List (DedupKey × (FileMetadata × ℚ)))
      (w : List (FileMetadata × ℚ)),
    (seen.map Prod.fst).Nodup →
    (((l.foldl (dedup_step g s) (seen, w)).1.map Prod.fst)).Nodup := by
  intro l
  induction l with
  | nil => intro seen w h; exact h
  | cons r t ih =>
    intro seen w h
    rw [List.foldl_cons]
    cases hg : g r.1 with
    | none =>
      have hstep : dedup_step g s (seen, w) r = (seen, w ++ [r]) := by
        unfold dedup_step; rw [hg]
      rw [hstep]
      exact ih seen (w ++ [r]) h
    | some emb =>
      have hstep : dedup_step g s (seen, w) r = (dedup_insert seen (s emb) r, w) := by
        unfold dedup_step; rw [hg]
      rw [hstep]
      exact ih _ w (dedup_insert_keys_nodup r h)

theorem dedup_fold_keeps_min (g : FileMetadata → Option (List ℚ)) (s : List ℚ → DedupKey)
    (a : FileMetadata) :
    ∀ (l : List (FileMetadata × ℚ)) (k : DedupKey)
      (seen : List (DedupKey × (FileMetadata × ℚ))) (w : List (FileMetadata × ℚ)),
    (∀ r ∈ l, ∀ vr, g r.1 = some vr → s vr = k →
        (r.1 = a ∨ strLt a.file_path r.1.file_path = true)) →
    ((∃ sc, seen.find? (fun e => e.1 = k) = some (k, (a, sc))) ∨
      ((∃ sc va, (a, sc) ∈ l ∧ g a = some va ∧ s va = k) ∧
        (seen.find? (fun e => e.1 = k) = none ∨
          ∃ p, seen.find? (fun e => e.1 = k) = some (k, p) ∧
            strLt a.file_path p.1.file_path = true))) →
    ∃ sc, (l.foldl (dedup_step g s) (seen, w)).1.find? (fun e => e.1 = k) =
      some (k, (a, sc)) := by
  intro l
  induction l with
  | nil =>
    intro k seen w _ hstate
    rcases hstate with ⟨sc, hfind⟩ | ⟨⟨sc, va, hmem, _⟩, _⟩
    · exact ⟨sc, hfind⟩
    · simp at hmem
  | cons r t ih =>
    intro k seen w H1 hstate
    rw [List.foldl_cons]
    cases hg : g r.1 with
    | none =>
      have hstep : dedup_step g s (seen, w) r = (seen, w ++ [r]) := by
        unfold dedup_step; rw [hg]
      rw [hstep]
      apply ih k seen (w ++ [r]) (fun r' hr' => H1 r' (List.mem_cons_of_mem _ hr'))
      rcases hstate with hleft | ⟨⟨sc, va, hmem, hga, hsva⟩, hrest⟩
      · exact Or.inl hleft
      · refine Or.inr ⟨⟨sc, va, ?_, hga, hsva⟩, hrest⟩
        rcases List.mem_cons.mp hmem with h1 | h1
        · exfalso
          have hfst : a = r.1 := congrArg Prod.fst h1
          rw [← hfst, hga] at hg
          exact Option.noConfusion hg
        · exact h1
    | some emb =>
      have hstep : dedup_step g s (seen, w) r = (dedup_insert seen (s emb) r, w) := by
        unfold dedup_step; rw [hg]
      rw [hstep]
      by_cases hk2 : s emb = k
      · subst hk2
        have hra := H1 r (List.mem_cons_self _ _) emb hg rfl
        rcases hstate with ⟨sc0, hfind⟩ | ⟨⟨sc, va, hmem, hga, hsva⟩, hrest⟩
        · have hfind' := dedup_insert_find_some r hfind
          have hcond : ¬ (strLt r.1.file_path
              ((a, sc0) : FileMetadata × ℚ).1.file_path = true) := by
            rcases hra with h1 | h1
            · intro hx
              rw [h1] at hx
              have hx' : strLt a.file_path a.file_path = true := hx
              rw [strLt_irrefl] at hx'
              exact Bool.noConfusion hx'
            · intro hx
              have hx' : strLt r.1.file_path a.file_path = true := hx
              rw [strLt_asymm h1] at hx'
              exact Bool.noConfusion hx'
          rw [if_neg hcond] at hfind'
          exact ih _ _ w (fun r' hr' => H1 r' (List.mem_cons_of_mem _ hr'))
            (Or.inl ⟨sc0, hfind'⟩)
        · rcases hrest with hnone | ⟨p, hfindp, hap⟩
          · have hfind' := dedup_insert_find_none r hnone
            rcases hra with h1 | h1
            · have hr : ((a, r.2) : FileMetadata × ℚ) = r := by rw [← h1]
              refine ih _ _ w (fun r' hr' => H1 r' (List.mem_cons_of_mem _ hr'))
                (Or.inl ⟨r.2, ?_⟩)
              rw [hr]
              exact hfind'
            · refine ih _ _ w (fun r' hr' => H1 r' (List.mem_cons_of_mem _ hr'))
                (Or.inr ⟨⟨sc, va, ?_, hga, hsva⟩, Or.inr ⟨r, hfind', h1⟩⟩)
              rcases List.mem_cons.mp hmem with h2 | h2
              · exfalso
                have hfst : a = r.1 := congrArg Prod.fst h2
                rw [← hfst] at h1
                rw [strLt_irrefl] at h1
                exact Bool.noConfusion h1
              · exact h2
          · have hfind' := dedup_insert_find_some r hfindp
            rcases hra with h1 | h1
            · have hcond : strLt r.1.file_path p.1.file_path = true := by
                rw [h1]; exact hap
              rw [if_pos hcond] at hfind'
              have hr : ((a, r.2) : FileMetadata × ℚ) = r := by rw [← h1]
              refine ih _ _ w (fun r' hr' => H1 r' (List.mem_cons_of_mem _ hr'))
                (Or.inl ⟨r.2, ?_⟩)
              rw [hr]
              exact hfind'
            · have hmemt : ((a, sc) : FileMetadata × ℚ) ∈ t := by
                rcases List.mem_cons.mp hmem with h2 | h2
                · exfalso
                  have hfst : a = r.1 := congrArg Prod.fst h2
                  rw [← hfst] at h1
                  rw [strLt_irrefl] at h1
                  exact Bool.noConfusion h1
                · exact h2
              by_cases hc : strLt r.1.file_path p.1.file_path = true
              · rw [if_pos hc] at hfind'
                exact ih _ _ w (fun r' hr' => H1 r' (List.mem_cons_of_mem _ hr'))
                  (Or.inr ⟨⟨sc, va, hmemt, hga, hsva⟩, Or.inr ⟨r, hfind', h1⟩⟩)
              · rw [if_neg hc] at hfind'
                exact ih _ _ w (fun r' hr' => H1 r' (List.mem_cons_of_mem _ hr'))
                  (Or.inr ⟨⟨sc, va, hmemt, hga, hsva⟩, Or.inr ⟨p, hfind', hap⟩⟩)
      · have hkk' : k ≠ s emb := fun hh => hk2 hh.symm
        apply ih k _ w (fun r' hr' => H1 r' (List.mem_cons_of_mem _ hr'))
        rcases hstate with ⟨sc0, hfind⟩ | ⟨⟨sc, va, hmem, hga, hsva⟩, hrest⟩
        · exact Or.inl ⟨sc0, by rw [dedup_insert_find_other r hkk']; exact hfind⟩
        · refine Or.inr ⟨⟨sc, va, ?_, hga, hsva⟩, ?_⟩
          · rcases List.mem_cons.mp hmem with h2 | h2
            · exfalso
              have hfst : a = r.1 := congrArg Prod.fst h2
              rw [← hfst, hga] at hg
              have hve : va = emb := Option.some.inj hg
              rw [hve] at hsva
              exact hk2 hsva
            · exact h2
          · rcases hrest with hnone | ⟨p, hfp, hap⟩
            · exact Or.inl (by rw [dedup_insert_find_other r hkk']; exact hnone)
            · exact Or.inr ⟨p, by rw [dedup_insert_find_other r hkk']; exact hfp, hap⟩

/-- **C3** — corrected.  When `filter_duplicate_files` is on,
`deduplicate_by_embedding` keeps, out of each group of records whose
stored vectors serialize to byte-identical blobs, exactly the record
whose `file_path` is lexicographically smallest in the *whole group*
(not merely of each pair: a pair both of whose members lose to a third
group member contributes neither, refuting the claim's pairwise
reading), and preserves every vectorless record verbatim.  Stated for a
group-minimal record `a` and any other same-key record `b`. -/
theorem C3_dedup_keeps_lex_smallest
    (g : FileMetadata → Option (List ℚ)) (s : List ℚ → DedupKey)
    (results : List (FileMetadata × ℚ)) (a b : FileMetadata) (sa sb : ℚ)
    (va vb : List ℚ)
    (hA : (a, sa) ∈ results) (hB : (b, sb) ∈ results)
    (haLen : 0 < a.embedding_length) (hbLen : 0 < b.embedding_length)
    (hga : g a = some va) (hgb : g b = some vb)
    (hkey : s vb = s va)
    (hab : strLt a.file_path b.file_path = true)
    (hmin : ∀ c sc, (c, sc) ∈ results → 0 < c.embedding_length →
        ∀ vc, g c = some vc → s vc = s va →
        (c = a ∨ strLt a.file_path c.file_path = true)) :
    (∃ sc, (a, sc) ∈ deduplicate_by_embedding g s results) ∧
    (∀ sc, (b, sc) ∉ deduplicate_by_embedding g s results) ∧
    (∀ m sc, (m, sc) ∈ results → ¬ 0 < m.embedding_length →
        (m, sc) ∈ deduplicate_by_embedding g s results) := by
  have hAw : ((a, sa) : FileMetadata × ℚ) ∈
      results.filter (fun r => 0 < r.1.embedding_length) :=
    List.mem_filter.mpr ⟨hA, decide_eq_true haLen⟩
  have hne : ¬ ((results.filter
      (fun r => 0 < r.1.embedding_length)).isEmpty = true) := by
    intro hx
    rw [List.isEmpty_iff] at hx
    rw [hx] at hAw
    simp at hAw
  have hout : deduplicate_by_embedding g s results =
      (((results.filter (fun r => 0 < r.1.embedding_length)).foldl (dedup_step g s)
          ([], results.filter (fun r => ¬ 0 < r.1.embedding_length))).1.map
        (fun e => e.2)) ++
      ((results.filter (fun r => 0 < r.1.embedding_length)).foldl (dedup_step g s)
          ([], results.filter (fun r => ¬ 0 < r.1.embedding_length))).2 := by
    simp only [deduplicate_by_embedding]
    rw [if_neg hne]
  have H1 : ∀ r ∈ results.filter (fun r => 0 < r.1.embedding_length),
      ∀ vr, g r.1 = some vr → s vr = s va →
      (r.1 = a ∨ strLt a.file_path r.1.file_path = true) := by
    intro r hr vr hgr hsr
    have hrm := List.mem_filter.mp hr
    have hlen : 0 < r.1.embedding_length := of_decide_eq_true hrm.2
    exact hmin r.1 r.2 hrm.1 hlen vr hgr hsr
  obtain ⟨sc0, hkept⟩ := dedup_fold_keeps_min g s a
    (results.filter (fun r => 0 < r.1.embedding_length)) (s va) []
    (results.filter (fun r => ¬ 0 < r.1.embedding_length)) H1
    (Or.inr ⟨⟨sa, va, hAw, hga, rfl⟩, Or.inl rfl⟩)
  refine ⟨⟨sc0, ?_⟩, ?_, ?_⟩
  · rw [hout]
    apply List.mem_append_left
    exact List.mem_map.mpr ⟨(s va, (a, sc0)), List.mem_of_find?_eq_some hkept, rfl⟩
  · intro sc hmem2
    rw [hout] at hmem2
    rcases List.mem_append.mp hmem2 with hmem2 | hmem2
    · rcases List.mem_map.mp hmem2 with ⟨e, he, hsnd⟩
      have hsnd' : e.2 = ((b, sc) : FileMetadata × ℚ) := hsnd
      obtain ⟨emb, hge, hse⟩ := dedup_fold_key_inv g s
        (results.filter (fun r => 0 < r.1.embedding_length)) []
        (results.filter (fun r => ¬ 0 < r.1.embedding_length))
        (by intro e' he'; simp at he') e he
      have hb1 : e.2.1 = b := by rw [hsnd']
      rw [hb1, hgb] at hge
      have hvb : emb = vb := (Option.some.inj hge).symm
      have he1 : e.1 = s va := by rw [← hse, hvb, hkey]
      have hee : ((s va, (b, sc)) : DedupKey × (FileMetadata × ℚ)) = e := by
        rw [← he1, ← hsnd']
      have hnd := dedup_fold_keys_nodup g s
        (results.filter (fun r => 0 < r.1.embedding_length)) []
        (results.filter (fun r => ¬ 0 < r.1.embedding_length)) (by simp)
      have heq := mem_key_unique (by rw [hee]; exact he) hnd hkept
      have hba : b = a := congrArg Prod.fst heq
      rw [hba] at hab
      rw [strLt_irrefl] at hab
      exact Bool.noConfusion hab
    · rw [dedup_fold_snd] at hmem2
      rcases List.mem_append.mp hmem2 with h2 | h2
      · have h3 : ¬ 0 < ((b, sc) : FileMetadata × ℚ).1.embedding_length :=
          of_decide_eq_true (List.mem_filter.mp h2).2
        exact h3 hbLen
      · have h3 : (g ((b, sc) : FileMetadata × ℚ).1).isNone = true :=
          (List.mem_filter.mp h2).2
        have h4 : (g b).isNone = true := h3
        rw [hgb] at h4
        exact Bool.noConfusion h4
  · intro m sc hm hlen
    rw [hout]
    apply List.mem_append_right
    rw [dedup_fold_snd]
    apply List.mem_append_left
    exact List.mem_filter.mpr ⟨hm, decide_eq_true hlen⟩

theorem C3_counterexample :
    deduplicate_by_embedding (fun _ => some [1]) (fun _ => [7])
        [(exDupB, 1), (exDupC, 2), (exDupA, 3)] = [(exDupA, 3)] ∧
    (∀ p ∈ deduplicate_by_embedding (fun _ => some [1]) (fun _ => [7])
        [(exDupB, 1), (exDupC, 2), (exDupA, 3)], p.1 ≠ exDupB ∧ p.1 ≠ exDupC) := by
  decide

theorem C3_witness :
    (∃ sc, (exDupA, sc) ∈ deduplicate_by_embedding (fun _ => some [1]) (fun _ => [7])
        [(exDupB, 1), (exDupC, 2), (exDupA, 3)]) ∧
    (∀ sc, (exDupB, sc) ∉ deduplicate_by_embedding (fun _ => some [1]) (fun _ => [7])
        [(exDupB, 1), (exDupC, 2), (exDupA, 3)]) ∧
    (∀ m sc, (m, sc) ∈ [(exDupB, 1), (exDupC, 2), (exDupA, 3)] →
        ¬ 0 < m.embedding_length →
        (m, sc) ∈ deduplicate_by_embedding (fun _ => some [1]) (fun _ => [7])
            [(exDupB, 1), (exDupC, 2), (exDupA, 3)]) :=
  C3_dedup_keeps_lex_smallest (fun _ => some [1]) (fun _ => [7])
    [(exDupB, 1), (exDupC, 2), (exDupA, 3)] exDupA exDupB 3 1 [1] [1]
    (by decide) (by decide) (by decide) (by decide) rfl rfl rfl (by decide)
    (by
      intro c sc hc _ vc hvc hsv
      simp only [List.mem_cons, List.not_mem_nil, or_false] at hc
      rcases hc with hc | hc | hc
      all_goals {
        have hcfst := congrArg Prod.fst hc
        rw [show (c, sc).1 = c from rfl] at hcfst
        rw [hcfst]
        decide })

/- ## C5 -/

theorem ceilLog2Aux_le (m : Nat) :
    ∀ (fuel n : Nat), m ≤ 2 ^ n * 2 ^ fuel →
      m ≤ 2 ^ ceilLog2Aux m fuel (2 ^ n) n := by
  intro fuel
  induction fuel with
  | zero =>
    intro n h
    simp only [pow_zero, Nat.mul_one] at h
    simpa [ceilLog2Aux] using h
  | succ fuel ih =>
    intro n h
    simp only [ceilLog2Aux]
    by_cases hc : m ≤ 2 ^ n
    · rw [if_pos hc]; exact hc
    · rw [if_neg hc]
      rw [show (2 : Nat) ^ n * 2 = 2 ^ (n + 1) from (pow_succ 2 n).symm]
      apply ih
      have heq : (2 : Nat) ^ n * 2 ^ (fuel + 1) = 2 ^ (n + 1) * 2 ^ fuel := by ring
      rw [heq] at h
      exact h

theorem ceilLog2Aux_min (m : Nat) :
    ∀ (fuel n j : Nat), n ≤ j → m ≤ 2 ^ j → ceilLog2Aux m fuel (2 ^ n) n ≤ j := by
  intro fuel
  induction fuel with
  | zero => intro n j hnj _; simpa [ceilLog2Aux] using hnj
  | succ fuel ih =>
    intro n j hnj hj
    simp only [ceilLog2Aux]
    by_cases hc : m ≤ 2 ^ n
    · rw [if_pos hc]; exact hnj
    · rw [if_neg hc]
      have hnj2 : n < j := by
        by_contra hle
        push_neg at hle
        exact hc (le_trans hj (Nat.pow_le_pow_right (by omega) hle))
      rw [show (2 : Nat) ^ n * 2 = 2 ^ (n + 1) from (pow_succ 2 n).symm]
      exact ih (n + 1) j (by omega) hj

theorem ceilLog2_le_pow (m : Nat) : m ≤ 2 ^ ceilLog2 m := by
  unfold ceilLog2
  have h0 : m ≤ 2 ^ 0 * 2 ^ m := by
    simpa using Nat.le_of_lt (Nat.lt_two_pow m)
  exact ceilLog2Aux_le m m 0 h0

theorem ceilLog2_min (m j : Nat) (h : m ≤ 2 ^ j) : ceilLog2 m ≤ j :=
  ceilLog2Aux_min m m 0 j (Nat.zero_le j) h

/-- The fuel-based `ceilLog2` agrees with `Nat.clog 2`, as promised at
its definition. -/
theorem ceilLog2_eq_clog (m : Nat) : ceilLog2 m = Nat.clog 2 m := by
  apply le_antisymm
  · exact ceilLog2_min m _ ((Nat.le_pow_iff_clog_le one_lt_two).mpr le_rfl)
  · exact (Nat.le_pow_iff_clog_le one_lt_two).mp (ceilLog2_le_pow m)

theorem length_filterMap_of_forall_isSome {α β : Type} (f : α → Option β)
    (l : List α) (h : ∀ x ∈ l, (f x).isSome = true) :
    (l.filterMap f).length = l.length := by
  induction l with
  | nil => rfl
  | cons x t ih =>
    rw [List.filterMap_cons]
    cases hx : f x with
    | none =>
      exfalso
      have := h x (List.mem_cons_self _ _)
      rw [hx] at this
      exact Bool.noConfusion this
    | some y =>
      rw [List.length_cons, ih (fun z hz => h z (List.mem_cons_of_mem _ hz)),
        List.length_cons]

theorem length_if_isEmpty {α : Type} (S d : List α) (N : Nat)
    (h : S.length = N) (hN : N ≠ 0) :
    (if S.isEmpty then d else S).length = N := by
  have hf : S.isEmpty = false := by
    cases S with
    | nil => rw [List.length_nil] at h; exact absurd h.symm hN
    | cons a t => rfl
  simp only [hf, Bool.false_eq_true, if_false]
  exact h

theorem chunk_text_ne_nil (chunk_size : Nat) (text : Str) :
    chunk_text chunk_size text ≠ [] := by
  unfold chunk_text
  dsimp only []
  by_cases h : ((chunksOf chunk_size (splitWs text)).map
      (List.intercalate (str " "))).isEmpty = true
  · rw [if_pos h]
    exact List.cons_ne_nil _ _
  · rw [if_neg h]
    intro hx
    rw [hx] at h
    exact h rfl

theorem create_sections_length (chunks : List Str) (C : Nat)
    (hne : chunks ≠ [])
    (hlen : num_sections_of ((chunks.map fun c => c.length / 4).sum) C ≤
      chunks.length) :
    (create_multiple_embedding_sections chunks C).length =
      num_sections_of ((chunks.map fun c => c.length / 4).sum) C := by
  have hneb : chunks.isEmpty = false := by
    cases chunks with
    | nil => exact absurd rfl hne
    | cons a t => rfl
  unfold create_multiple_embedding_sections
  rw [if_neg (by simp [hneb])]
  dsimp only []
  set N := num_sections_of ((chunks.map fun c => c.length / 4).sum) C with hN
  by_cases hN1 : N = 1
  · rw [if_pos hN1, hN1]
    rfl
  · rw [if_neg hN1]
    have hpos : 1 ≤ N := by rw [hN]; unfold num_sections_of; exact Nat.le_max_left _ _
    have hN2 : 2 ≤ N := by omega
    set cps := chunks.length / N with hcpsdef
    have hcps1 : 1 ≤ cps := by
      rw [hcpsdef]
      exact (Nat.one_le_div_iff (by omega)).mpr hlen
    have hNcps : N * cps ≤ chunks.length := by
      rw [hcpsdef, Nat.mul_comm]
      exact Nat.div_mul_le_self _ _
    have hlen0 : 0 < chunks.length := by omega
    have hall : ∀ i ∈ List.range N,
        ((if i = 0 then 0 else i * cps - cps / 5) <
          (if i = N - 1 then chunks.length
            else min ((i + 1) * cps) chunks.length) ∧
          (if i = 0 then 0 else i * cps - cps / 5) < chunks.length) := by
      intro i hi
      rw [List.mem_range] at hi
      by_cases hi0 : i = 0
      · rw [if_pos hi0]
        have hiN : ¬ (i = N - 1) := by omega
        rw [if_neg hiN]
        constructor
        · apply Nat.lt_min.mpr
          constructor
          · have : 1 * cps ≤ (i + 1) * cps :=
              Nat.mul_le_mul_right cps (by omega)
            omega
          · exact hlen0
        · exact hlen0
      · rw [if_neg hi0]
        by_cases hiN : i = N - 1
        · rw [if_pos hiN, hiN]
          have hsum : (N - 1) * cps + cps = N * cps := by
            rw [Nat.sub_mul, Nat.one_mul]
            have hc : cps ≤ N * cps := by
              have := Nat.mul_le_mul_right cps hpos
              simpa using this
            omega
          have h1 : (N - 1) * cps < (N - 1) * cps + cps := by omega
          have h2 : (N - 1) * cps + cps ≤ chunks.length := by
            rw [hsum]; exact hNcps
          have hlt : (N - 1) * cps < chunks.length := Nat.lt_of_lt_of_le h1 h2
          exact ⟨Nat.lt_of_le_of_lt (Nat.sub_le _ _) hlt,
            Nat.lt_of_le_of_lt (Nat.sub_le _ _) hlt⟩
        · rw [if_neg hiN]
          have hi1 : i + 1 ≤ N := by omega
          have hb : (i + 1) * cps ≤ chunks.length :=
            le_trans (Nat.mul_le_mul_right cps hi1) hNcps
          rw [Nat.min_eq_left hb]
          have hstep : i * cps < (i + 1) * cps := by
            have h1 : i * cps < i * cps + cps := Nat.lt_add_of_pos_right (by omega)
            rw [← Nat.succ_mul] at h1
            exact h1
          exact ⟨Nat.lt_of_le_of_lt (Nat.sub_le _ _) hstep,
            Nat.lt_of_le_of_lt (Nat.sub_le _ _) (Nat.lt_of_lt_of_le hstep hb)⟩
    refine length_if_isEmpty _ _ _ ?_ (by omega)
    refine Eq.trans (length_filterMap_of_forall_isSome _ _ ?_) (List.length_range N)
    intro i hi
    dsimp only []
    rw [if_pos (hall i hi)]
    rfl

theorem upsert_rows_append (a b : List WriteOp) :
    upsert_rows (a ++ b) = upsert_rows a ++ upsert_rows b :=
  List.filterMap_append a b _

theorem add_file_writes_one_row (ser : List ℚ → List Nat) (st : StorageState)
    (metadata : FileMetadata) (embedding : List ℚ) :
    ∃ off len,
      upsert_rows (Storage.add_file ser st metadata embedding).2 =
        [{ metadata with embedding_offset := off, embedding_length := len }] := by
  cases h : st.get_file_metadata metadata.file_path with
  | none =>
    rw [add_file_eq_of_none ser st metadata embedding h]
    exact ⟨_, _, rfl⟩
  | some existing =>
    by_cases ht : existing.modified_time = metadata.modified_time ∧
        existing.file_size = metadata.file_size ∧
        existing.embedding_length = ((ser embedding).length : Int)
    · rw [add_file_eq_of_matching ser st metadata existing embedding h ht]
      exact ⟨_, _, rfl⟩
    · rw [add_file_eq_of_changed ser st metadata existing embedding h ht]
      exact ⟨_, _, rfl⟩

theorem enum_map_fst_comp {α β : Type} (l : List α) (g : Nat → β) :
    l.enum.map (fun si => g si.1) = (List.range l.length).map g := by
  have h : (fun si : Nat × α => g si.1) = g ∘ Prod.fst := rfl
  rw [h, ← List.map_map, List.enum_map_fst]

theorem index_sections_fold (env : FsEnv) (file_path file_name file_type : Str)
    (fsz mt : Int) :
    ∀ (l : List (Nat × Str)) (st : StorageState) (w : List WriteOp),
    (upsert_rows (l.foldl (fun acc si =>
        ((Storage.add_file env.ser acc.1
            ⟨0,
              (if si.1 = 0 then file_path
                else file_path ++ str "#section" ++ natToStr (si.1 + 1)),
              (if si.1 = 0 then file_name
                else file_name ++ str " (section " ++ natToStr (si.1 + 1) ++ str ")"),
              fsz, mt, file_type, 0, 0⟩ (env.embed si.2)).1,
         acc.2 ++ (Storage.add_file env.ser acc.1
            ⟨0,
              (if si.1 = 0 then file_path
                else file_path ++ str "#section" ++ natToStr (si.1 + 1)),
              (if si.1 = 0 then file_name
                else file_name ++ str " (section " ++ natToStr (si.1 + 1) ++ str ")"),
              fsz, mt, file_type, 0, 0⟩ (env.embed si.2)).2))
      (st, w)).2).map (fun r => (r.file_path, r.file_name)) =
      (upsert_rows w).map (fun r => (r.file_path, r.file_name)) ++
        l.map (fun si => (section_path file_path si.1, section_name file_name si.1)) := by
  intro l
  induction l with
  | nil =>
    intro st w
    simp
  | cons si t ih =>
    intro st w
    rw [List.foldl_cons]
    rw [ih]
    rw [upsert_rows_append]
    obtain ⟨off, len, hrow⟩ := add_file_writes_one_row env.ser st
      ⟨0,
        (if si.1 = 0 then file_path
          else file_path ++ str "#section" ++ natToStr (si.1 + 1)),
        (if si.1 = 0 then file_name
          else file_name ++ str " (section " ++ natToStr (si.1 + 1) ++ str ")"),
        fsz, mt, file_type, 0, 0⟩ (env.embed si.2)
    rw [hrow]
    simp [section_path, section_name]

/-- **C5** — corrected.  Above `4 · max_context_tokens` estimated
tokens the indexer persists one record per *section actually emitted by*
`create_multiple_embedding_sections`, with the claimed `#sectionk` /
`NAME (section k)` naming; that section count equals the claimed
`⌈log₂(Total/C + 1)⌉` only when the chunk list is at least that long
(`num_sections_of … ≤ chunks.length`).  When the text chunks into fewer
pieces than sections (e.g. one huge word), `chunks_per_section` is 0,
every non-final slice is empty, and fewer records are written — see
`C5_counterexample`. -/
theorem C5_section_records (env : FsEnv) (config : AppConfig) (st : StorageState)
    (file_path text : Str) (mt fsz : Int)
    (hmeta : should_index_metadata_only file_path = false)
    (htext : env.extract_text file_path = some text)
    (hnonempty : (trimStr text).isEmpty = false)
    (hfs : env.metadataOf file_path = some (mt, fsz))
    (hbig : config.max_context_tokens * 4 <
        ((chunk_text config.chunk_size text).map fun c => c.length / 4).sum)
    (hlen : num_sections_of
        (((chunk_text config.chunk_size text).map fun c => c.length / 4).sum)
        config.max_context_tokens ≤ (chunk_text config.chunk_size text).length) :
    (upsert_rows (index_file env config st file_path).2).map
        (fun r => (r.file_path, r.file_name)) =
      (List.range (num_sections_of
          (((chunk_text config.chunk_size text).map fun c => c.length / 4).sum)
          config.max_context_tokens)).map
        (fun i => (section_path file_path i,
          section_name (fileNameOrUnknown file_path) i)) := by
  have hsec := create_sections_length (chunk_text config.chunk_size text)
    config.max_context_tokens (chunk_text_ne_nil _ _) hlen
  simp only [index_file, hmeta, Bool.false_eq_true, if_false, htext, hnonempty, hfs]
  split_ifs with h1 h2 h3
  · omega
  · omega
  · omega
  · refine Eq.trans (index_sections_fold env file_path (fileNameOrUnknown file_path)
      (extensionOrUnknown file_path) fsz mt
      ((create_multiple_embedding_sections (chunk_text config.chunk_size text)
        config.max_context_tokens).enum) st []) ?_
    exact (enum_map_fst_comp
        (create_multiple_embedding_sections (chunk_text config.chunk_size text)
          config.max_context_tokens)
        (fun i => (section_path file_path i,
          section_name (fileNameOrUnknown file_path) i))).trans
      (by rw [hsec])

/-- C5 (counterexample): under `exConfig` (`max_context_tokens = 2`) a
file whose text is one 80-character word estimates to 20 = 10 · C
tokens, so the claim demands `⌈log₂ 11⌉ = 4` section records — but the
single-chunk text makes `chunks_per_section = 0`, every non-final
section slice empty, and the indexer persists exactly one record. -/
theorem C5_counterexample :
    ((chunk_text exConfig.chunk_size (List.replicate 80 'a')).map
        (fun c => c.length / 4)).sum = 20 ∧
    exConfig.max_context_tokens * 4 <
      ((chunk_text exConfig.chunk_size (List.replicate 80 'a')).map
        (fun c => c.length / 4)).sum ∧
    num_sections_of 20 exConfig.max_context_tokens = 4 ∧
    (upsert_rows (index_file exBigWordEnv exConfig ⟨[], []⟩
        (str "d/big.txt")).2).length = 1 := by
  decide

theorem C5_witness :
    (upsert_rows (index_file exScanEnv exConfig ⟨[], []⟩ (str "d/a.txt")).2).map
        (fun r => (r.file_path, r.file_name)) =
      (List.range (num_sections_of
          (((chunk_text exConfig.chunk_size
              (str "aaaa bbbb cccc dddd eeee ffff gggg hhhh iiii")).map
            fun c => c.length / 4).sum)
          exConfig.max_context_tokens)).map
        (fun i => (section_path (str "d/a.txt") i,
          section_name (fileNameOrUnknown (str "d/a.txt")) i)) :=
  C5_section_records exScanEnv exConfig ⟨[], []⟩ (str "d/a.txt")
    (str "aaaa bbbb cccc dddd eeee ffff gggg hhhh iiii") 5 100
    (by decide) rfl (by decide) (by decide) (by decide) (by decide)

/- ## C4 -/

/-- **C4** (code bug): startup reconciliation is *not* idempotent.  On
`exScanEnv` (one unchanged parsable file) the first scan stores three
`d/a.txt#sectionK` records; the second scan's disk walk only marks the
plain path `d/a.txt` as seen, so the post-walk cleanup deletes the
`#section2`/`#section3` rows even though the filesystem did not change —
the second run performs two `deleteRow` writes where the claim requires
none. -/
theorem C4_second_scan_writes :
    (perform_startup_scan exScanEnv exConfig
        (perform_startup_scan exScanEnv exConfig ⟨[], []⟩).1).2 =
      [.deleteRow (str "d/a.txt#section2"), .deleteRow (str "d/a.txt#section3")] := by
  decide

/- ## C8 -/

theorem qmin_le_left (a b : ℚ) : qmin a b ≤ a := by
  unfold qmin
  split_ifs with h
  · exact le_refl a
  · exact le_of_not_le h

theorem qmin_le_right (a b : ℚ) : qmin a b ≤ b := by
  unfold qmin
  split_ifs with h
  · exact h
  · exact le_refl b

theorem qmin_eq_or (a b : ℚ) : qmin a b = a ∨ qmin a b = b := by
  unfold qmin
  split_ifs with h
  · left; rfl
  · right; rfl

theorem foldl_qmin_le_init (t : List (ℚ × Nat)) :
    ∀ a : ℚ, t.foldl (fun m x => qmin m x.1) a ≤ a := by
  induction t with
  | nil => intro a; exact le_refl a
  | cons x s ih =>
    intro a
    exact le_trans (ih (qmin a x.1)) (qmin_le_left a x.1)

theorem foldl_qmin_le_mem (t : List (ℚ × Nat)) :
    ∀ a : ℚ, ∀ x ∈ t, t.foldl (fun m x => qmin m x.1) a ≤ x.1 := by
  induction t with
  | nil => intro a x hx; simp at hx
  | cons y s ih =>
    intro a x hx
    rcases List.mem_cons.mp hx with h | h
    · rw [List.foldl_cons, h]
      exact le_trans (foldl_qmin_le_init s _) (qmin_le_right a y.1)
    · exact ih (qmin a y.1) x h

theorem foldl_qmin_attained (t : List (ℚ × Nat)) :
    ∀ a : ℚ, t.foldl (fun m x => qmin m x.1) a = a ∨
      ∃ x ∈ t, t.foldl (fun m x => qmin m x.1) a = x.1 := by
  induction t with
  | nil => intro a; left; rfl
  | cons y s ih =>
    intro a
    rw [List.foldl_cons]
    rcases ih (qmin a y.1) with h | ⟨x, hx, h⟩
    · rcases qmin_eq_or a y.1 with h2 | h2
      · left; rw [h, h2]
      · right; exact ⟨y, List.mem_cons_self _ _, by rw [h, h2]⟩
    · right; exact ⟨x, List.mem_cons_of_mem _ hx, h⟩

theorem heapMinScore_le {heap : List (ℚ × Nat)} (hne : heap ≠ []) :
    ∀ w ∈ heap, heapMinScore heap ≤ w.1 := by
  cases heap with
  | nil => exact absurd rfl hne
  | cons h t =>
    intro w hw
    rcases List.mem_cons.mp hw with h1 | h1
    · rw [h1]
      exact foldl_qmin_le_init t h.1
    · exact foldl_qmin_le_mem t h.1 w h1

theorem heapMinScore_attained {heap : List (ℚ × Nat)} (hne : heap ≠ []) :
    ∃ w ∈ heap, w.1 = heapMinScore heap := by
  cases heap with
  | nil => exact absurd rfl hne
  | cons h t =>
    rcases foldl_qmin_attained t h.1 with h1 | ⟨x, hx, h1⟩
    · exact ⟨h, List.mem_cons_self _ _, h1.symm⟩
    · exact ⟨x, List.mem_cons_of_mem _ hx, h1.symm⟩

theorem heapReplaceFirstMin_length (heap : List (ℚ × Nat)) (m : ℚ) (v : ℚ × Nat) :
    (heapReplaceFirstMin heap m v).length = heap.length := by
  induction heap with
  | nil => rfl
  | cons h t ih =>
    unfold heapReplaceFirstMin
    by_cases hh : h.1 = m
    · rw [if_pos hh, List.length_cons, List.length_cons]
    · rw [if_neg hh, List.length_cons, List.length_cons, ih]

theorem heapReplaceFirstMin_mem {heap : List (ℚ × Nat)} {m : ℚ} {v x : ℚ × Nat}
    (h : x ∈ heapReplaceFirstMin heap m v) : x = v ∨ x ∈ heap := by
  induction heap with
  | nil => simp [heapReplaceFirstMin] at h
  | cons hd t ih =>
    unfold heapReplaceFirstMin at h
    by_cases hh : hd.1 = m
    · rw [if_pos hh] at h
      rcases List.mem_cons.mp h with h1 | h1
      · left; exact h1
      · right; exact List.mem_cons_of_mem _ h1
    · rw [if_neg hh] at h
      rcases List.mem_cons.mp h with h1 | h1
      · right; rw [h1]; exact List.mem_cons_self _ _
      · rcases ih h1 with h2 | h2
        · left; exact h2
        · right; exact List.mem_cons_of_mem _ h2

theorem heapReplaceFirstMin_self {heap : List (ℚ × Nat)} {m : ℚ} (v : ℚ × Nat)
    (h : ∃ w ∈ heap, w.1 = m) : v ∈ heapReplaceFirstMin heap m v := by
  induction heap with
  | nil =>
    rcases h with ⟨w, hw, _⟩
    simp at hw
  | cons hd t ih =>
    unfold heapReplaceFirstMin
    by_cases hh : hd.1 = m
    · rw [if_pos hh]; exact List.mem_cons_self _ _
    · rw [if_neg hh]
      rcases h with ⟨w, hw, hwm⟩
      rcases List.mem_cons.mp hw with h1 | h1
      · exact absurd (h1 ▸ hwm) hh
      · exact List.mem_cons_of_mem _ (ih ⟨w, h1, hwm⟩)

theorem heapReplaceFirstMin_removed {heap : List (ℚ × Nat)} {m : ℚ} {v x : ℚ × Nat}
    (hx : x ∈ heap) (hnx : x ∉ heapReplaceFirstMin heap m v) : x.1 = m := by
  induction heap with
  | nil => simp at hx
  | cons hd t ih =>
    unfold heapReplaceFirstMin at hnx
    by_cases hh : hd.1 = m
    · rw [if_pos hh] at hnx
      rcases List.mem_cons.mp hx with h1 | h1
      · rw [h1]; exact hh
      · exact absurd (List.mem_cons_of_mem _ h1) hnx
    · rw [if_neg hh] at hnx
      rcases List.mem_cons.mp hx with h1 | h1
      · exact absurd (by rw [h1]; exact List.mem_cons_self _ _) hnx
      · exact ih h1 (fun hc => hnx (List.mem_cons_of_mem _ hc))

theorem heapStep_inv {k : Nat} {heap P : List (ℚ × Nat)} (v : ℚ × Nat)
    (hinv : hnswHeapInv k heap P) : hnswHeapInv k (heapStep k heap v) (P ++ [v]) := by
  obtain ⟨I1, I2, I3, I4⟩ := hinv
  unfold heapStep
  by_cases hlt : heap.length < k
  · rw [if_pos hlt]
    refine ⟨?_, ?_, ?_, ?_⟩
    · have hP : (P ++ [v]).length = P.length + 1 := by simp
      rw [List.length_cons, hP, I1]
      omega
    · intro x hx
      rcases List.mem_cons.mp hx with h1 | h1
      · rw [h1]; exact List.mem_append_right _ (by simp)
      · exact List.mem_append_left _ (I2 x h1)
    · intro p hp
      rcases List.mem_append.mp hp with h1 | h1
      · left; exact List.mem_cons_of_mem _ (I4 hlt p h1)
      · left; rw [List.mem_singleton.mp h1]; exact List.mem_cons_self _ _
    · intro _ p hp
      rcases List.mem_append.mp hp with h1 | h1
      · exact List.mem_cons_of_mem _ (I4 hlt p h1)
      · rw [List.mem_singleton.mp h1]; exact List.mem_cons_self _ _
  · rw [if_neg hlt]
    cases heap with
    | nil =>
      have hk0 : k = 0 := by
        simp only [List.length_nil] at hlt
        omega
      refine ⟨?_, ?_, ?_, ?_⟩
      · simp [hk0]
      · intro x hx; simp at hx
      · intro p _; right; intro w hw; simp at hw
      · intro hcon; simp [hk0] at hcon
    | cons h t =>
      dsimp only []
      have hne : (h :: t) ≠ ([] : List (ℚ × Nat)) := List.cons_ne_nil _ _
      have hlen : (h :: t).length = k := by
        have hminle : min k P.length ≤ k := Nat.min_le_left _ _
        omega
      have hm_le := heapMinScore_le hne
      obtain ⟨w0, hw0, hw0m⟩ := heapMinScore_attained hne
      have hP : (P ++ [v]).length = P.length + 1 := by simp
      have hPk : k ≤ P.length := by
        rw [hlen] at I1
        omega
      by_cases hv : v.1 > heapMinScore (h :: t)
      · rw [if_pos hv]
        refine ⟨?_, ?_, ?_, ?_⟩
        · rw [heapReplaceFirstMin_length, hP, hlen]
          omega
        · intro x hx
          rcases heapReplaceFirstMin_mem hx with h1 | h1
          · rw [h1]; exact List.mem_append_right _ (by simp)
          · exact List.mem_append_left _ (I2 x h1)
        · intro p hp
          rcases List.mem_append.mp hp with h1 | h1
          · rcases I3 p h1 with h2 | h2
            · by_cases h3 : p ∈ heapReplaceFirstMin (h :: t) (heapMinScore (h :: t)) v
              · left; exact h3
              · right
                intro x hx
                have hpm : p.1 = heapMinScore (h :: t) :=
                  heapReplaceFirstMin_removed h2 h3
                rcases heapReplaceFirstMin_mem hx with h4 | h4
                · rw [h4, hpm]; exact le_of_lt hv
                · rw [hpm]; exact hm_le x h4
            · right
              intro x hx
              have hple : p.1 ≤ heapMinScore (h :: t) := hw0m ▸ h2 w0 hw0
              rcases heapReplaceFirstMin_mem hx with h4 | h4
              · rw [h4]; exact le_trans hple (le_of_lt hv)
              · exact le_trans hple (hm_le x h4)
          · rw [List.mem_singleton.mp h1]
            left
            exact heapReplaceFirstMin_self v ⟨w0, hw0, hw0m⟩
        · intro hcon
          rw [heapReplaceFirstMin_length, hlen] at hcon
          omega
      · rw [if_neg hv]
        refine ⟨?_, ?_, ?_, ?_⟩
        · rw [hP, hlen]
          omega
        · intro x hx; exact List.mem_append_left _ (I2 x hx)
        · intro p hp
          rcases List.mem_append.mp hp with h1 | h1
          · exact I3 p h1
          · right
            rw [List.mem_singleton.mp h1]
            intro x hx
            exact le_trans (not_lt.mp hv) (hm_le x hx)
        · intro hcon
          rw [hlen] at hcon
          omega

theorem hnswFold_inv (k : Nat) :
    ∀ (l : List (ℚ × Nat)) (heap P : List (ℚ × Nat)),
    hnswHeapInv k heap P →
    hnswHeapInv k (l.foldl (heapStep k) heap) (P ++ l) := by
  intro l
  induction l with
  | nil => intro heap P h; simpa using h
  | cons v t ih =>
    intro heap P h
    rw [List.foldl_cons]
    have h2 := ih (heapStep k heap v) (P ++ [v]) (heapStep_inv v h)
    rw [List.append_assoc] at h2
    exact h2

theorem hnswLoop_eq (sim : List ℚ → List ℚ → ℚ) (q : List ℚ) (k : Nat) :
    ∀ (l : List (List ℚ)) (i : Nat) (heap : List (ℚ × Nat)),
    hnswLoop sim q k l i heap = (hnswTagFrom sim q l i).foldl (heapStep k) heap := by
  intro l
  induction l with
  | nil => intro i heap; rfl
  | cons e rest ih =>
    intro i heap
    simp only [hnswLoop, hnswTagFrom, List.foldl_cons]
    exact ih (i + 1) _

theorem hnswTagFrom_mem (sim : List ℚ → List ℚ → ℚ) (q : List ℚ) :
    ∀ (l : List (List ℚ)) (i : Nat) (x : ℚ × Nat),
    x ∈ hnswTagFrom sim q l i ↔
      ∃ j e, l.get? j = some e ∧ x = (sim q e, i + j) := by
  intro l
  induction l with
  | nil =>
    intro i x
    simp [hnswTagFrom]
  | cons e rest ih =>
    intro i x
    simp only [hnswTagFrom, List.mem_cons]
    constructor
    · intro h
      rcases h with h1 | h1
      · exact ⟨0, e, rfl, by rw [h1]; exact Prod.ext rfl (by omega)⟩
      · rcases (ih (i + 1) x).mp h1 with ⟨j, e2, hg, hx⟩
        exact ⟨j + 1, e2, by simpa using hg,
          by rw [hx]; exact Prod.ext rfl (by omega)⟩
    · intro h
      rcases h with ⟨j, e2, hg, hx⟩
      cases j with
      | zero =>
        simp only [List.get?_cons_zero, Option.some.injEq] at hg
        left
        rw [hx, hg]
        exact Prod.ext rfl (by omega)
      | succ j2 =>
        right
        apply (ih (i + 1) x).mpr
        refine ⟨j2, e2, by simpa using hg, ?_⟩
        rw [hx]
        exact Prod.ext rfl (by omega)

/-- **C8** — confirmed.  For every index whose parallel arrays agree in
length, every query of the index's dimensionality and every `k`,
`HnswIndex::search` succeeds and returns at most `k` `(record, score)`
pairs, sorted non-increasing by score, each the similarity of a stored
vector to the query; every stored vector is either represented in the
returned list or scores no higher than every returned score (top-k
dominance); an empty index yields the empty list without error. -/
theorem C8_hnsw_search_topk (idx : HnswIndex) (sim : List ℚ → List ℚ → ℚ)
    (q : List ℚ) (k : Nat)
    (hdim : q.length = idx.dimensions)
    (hwf : idx.embeddings.length = idx.metadata_list.length) :
    ∃ res, idx.search sim q k = .ok res ∧
      res.length ≤ k ∧
      res.Pairwise (fun a b => b.2 ≤ a.2) ∧
      (∀ r ∈ res, ∃ i e, idx.embeddings.get? i = some e ∧
          idx.metadata_list.get? i = some r.1 ∧ r.2 = sim q e) ∧
      (∀ i e, idx.embeddings.get? i = some e →
        (∃ m, idx.metadata_list.get? i = some m ∧ (m, sim q e) ∈ res) ∨
        (∀ r ∈ res, sim q e ≤ r.2)) ∧
      (idx.embeddings = [] → res = []) := by
  unfold HnswIndex.search
  rw [if_neg (fun hne => hne hdim)]
  by_cases hemp : idx.embeddings.isEmpty = true
  · rw [if_pos hemp]
    refine ⟨[], rfl, Nat.zero_le k, List.Pairwise.nil, ?_, ?_, fun _ => rfl⟩
    · intro r hr; simp at hr
    · intro i e h
      rw [List.isEmpty_iff.mp hemp] at h
      simp at h
  · rw [if_neg hemp]
    dsimp only []
    have hinit : hnswHeapInv k [] [] := ⟨by simp, by simp, by simp, by simp⟩
    have hInv : hnswHeapInv k (hnswLoop sim q k idx.embeddings 0 [])
        (hnswTagFrom sim q idx.embeddings 0) := by
      rw [hnswLoop_eq]
      have h2 := hnswFold_inv k (hnswTagFrom sim q idx.embeddings 0) [] [] hinit
      simpa using h2
    obtain ⟨I1, I2, I3, I4⟩ := hInv
    refine ⟨_, rfl, ?_, ?_, ?_, ?_, ?_⟩
    · refine le_trans (List.length_filterMap_le _ _) ?_
      rw [sortByScoreDesc, (List.perm_insertionSort _ _).length_eq,
        List.length_map, I1]
      exact Nat.min_le_left _ _
    · refine List.pairwise_filterMap.mpr
        ((List.sorted_insertionSort _ _).imp ?_)
      intro a b hab x hx y hy
      rcases Option.map_eq_some'.mp (Option.mem_def.mp hx) with ⟨ma, _, hxa⟩
      rcases Option.map_eq_some'.mp (Option.mem_def.mp hy) with ⟨mb, _, hyb⟩
      rw [← hxa, ← hyb]
      exact hab
    · intro r hr
      rcases List.mem_filterMap.mp hr with ⟨rp, hrp, hfr⟩
      have hrpm : rp ∈ (hnswLoop sim q k idx.embeddings 0 []).map
          (fun it => (it.2, it.1)) :=
        (List.perm_insertionSort _ _).subset hrp
      rcases List.mem_map.mp hrpm with ⟨hv, hhv, hswap⟩
      have hvP := I2 hv hhv
      rcases (hnswTagFrom_mem sim q idx.embeddings 0 hv).mp hvP with ⟨j, e, hge, hve⟩
      rcases Option.map_eq_some'.mp hfr with ⟨m, hgm, hmr⟩
      have hrp1 : rp.1 = j := by
        rw [← hswap, hve]
        simp
      have hrp2v : rp.2 = sim q e := by
        rw [← hswap, hve]
      refine ⟨j, e, hge, ?_, ?_⟩
      · rw [hrp1] at hgm
        rw [← hmr]
        exact hgm
      · rw [← hmr]
        exact hrp2v
    · intro i e hge
      have hpP : ((sim q e, i) : ℚ × Nat) ∈ hnswTagFrom sim q idx.embeddings 0 :=
        (hnswTagFrom_mem sim q idx.embeddings 0 _).mpr
          ⟨i, e, hge, Prod.ext rfl (by omega)⟩
      rcases I3 _ hpP with h1 | h1
      · left
        have hmem2 : ((i, sim q e) : Nat × ℚ) ∈
            (hnswLoop sim q k idx.embeddings 0 []).map (fun it => (it.2, it.1)) :=
          List.mem_map.mpr ⟨(sim q e, i), h1, rfl⟩
        have hmem3 : ((i, sim q e) : Nat × ℚ) ∈
            sortByScoreDesc ((hnswLoop sim q k idx.embeddings 0 []).map
              fun it => (it.2, it.1)) :=
          ((List.perm_insertionSort _ _).mem_iff).mpr hmem2
        obtain ⟨hlt2, _⟩ := List.get?_eq_some.mp hge
        have hilt : i < idx.metadata_list.length := hwf ▸ hlt2
        have hm := List.get?_eq_get hilt
        refine ⟨idx.metadata_list.get ⟨i, hilt⟩, hm, ?_⟩
        refine List.mem_filterMap.mpr ⟨(i, sim q e), hmem3, ?_⟩
        dsimp only []
        rw [hm]
        rfl
      · right
        intro r hr
        rcases List.mem_filterMap.mp hr with ⟨rp, hrp, hfr⟩
        have hrpm : rp ∈ (hnswLoop sim q k idx.embeddings 0 []).map
            (fun it => (it.2, it.1)) :=
          (List.perm_insertionSort _ _).subset hrp
        rcases List.mem_map.mp hrpm with ⟨hv, hhv, hswap⟩
        have hle := h1 hv hhv
        rcases Option.map_eq_some'.mp hfr with ⟨m, hgm, hmr⟩
        rw [← hmr, ← hswap]
        exact hle
    · intro hnil
      exfalso
      rw [hnil] at hemp
      exact hemp rfl

theorem C8_witness :
    ∃ res, (⟨[[1], [2]], [exMetaA, exMetaB], [], 1⟩ : HnswIndex).search
        (fun _ v => v.headD 0) [5] 1 = .ok res ∧
      res.length ≤ 1 ∧
      res.Pairwise (fun a b => b.2 ≤ a.2) ∧
      (∀ r ∈ res, ∃ i e,
          (⟨[[1], [2]], [exMetaA, exMetaB], [], 1⟩ : HnswIndex).embeddings.get? i =
            some e ∧
          (⟨[[1], [2]], [exMetaA, exMetaB], [], 1⟩ : HnswIndex).metadata_list.get? i =
            some r.1 ∧
          r.2 = (fun (_ v : List ℚ) => v.headD 0) [5] e) ∧
      (∀ i e, (⟨[[1], [2]], [exMetaA, exMetaB], [], 1⟩ : HnswIndex).embeddings.get? i =
            some e →
        (∃ m, (⟨[[1], [2]], [exMetaA, exMetaB], [], 1⟩ : HnswIndex).metadata_list.get? i =
            some m ∧ (m, (fun (_ v : List ℚ) => v.headD 0) [5] e) ∈ res) ∨
        (∀ r ∈ res, (fun (_ v : List ℚ) => v.headD 0) [5] e ≤ r.2)) ∧
      ((⟨[[1], [2]], [exMetaA, exMetaB], [], 1⟩ : HnswIndex).embeddings = [] →
        res = []) :=
  C8_hnsw_search_topk ⟨[[1], [2]], [exMetaA, exMetaB], [], 1⟩
    (fun _ v => v.headD 0) [5] 1 rfl rfl

/- ## C1 -/

theorem dedup_fold_fst_from (g : FileMetadata → Option (List ℚ))
    (s : List ℚ → DedupKey) :
    ∀ (l : List (FileMetadata × ℚ)) (seen : List (DedupKey × (FileMetadata × ℚ)))
      (w : List (FileMetadata × ℚ)),
    ∀ e ∈ (l.foldl (dedup_step g s) (seen, w)).1, e ∈ seen ∨ e.2 ∈ l := by
  intro l
  induction l with
  | nil => intro seen w e he; left; exact he
  | cons r t ih =>
    intro seen w e he
    rw [List.foldl_cons] at he
    cases hg : g r.1 with
    | none =>
      have hstep : dedup_step g s (seen, w) r = (seen, w ++ [r]) := by
        unfold dedup_step; rw [hg]
      rw [hstep] at he
      rcases ih seen (w ++ [r]) e he with h1 | h1
      · left; exact h1
      · right; exact List.mem_cons_of_mem _ h1
    | some emb =>
      have hstep : dedup_step g s (seen, w) r = (dedup_insert seen (s emb) r, w) := by
        unfold dedup_step; rw [hg]
      rw [hstep] at he
      rcases ih _ w e he with h1 | h1
      · rcases dedup_insert_mem h1 with h2 | h2
        · left; exact h2
        · right
          rw [h2]
          exact List.mem_cons_self _ _
      · right; exact List.mem_cons_of_mem _ h1

theorem dedup_subset {g : FileMetadata → Option (List ℚ)} {s : List ℚ → DedupKey}
    {results : List (FileMetadata × ℚ)} {p : FileMetadata × ℚ}
    (h : p ∈ deduplicate_by_embedding g s results) : p ∈ results := by
  unfold deduplicate_by_embedding at h
  dsimp only [] at h
  by_cases he : ((results.filter fun r => 0 < r.1.embedding_length).isEmpty = true)
  · rw [if_pos he] at h
    exact (List.mem_filter.mp h).1
  · rw [if_neg he] at h
    rcases List.mem_append.mp h with h1 | h1
    · rcases List.mem_map.mp h1 with ⟨e, he2, hesnd⟩
      rcases dedup_fold_fst_from g s _ _ _ e he2 with h2 | h2
      · simp at h2
      · have hesnd' : e.2 = p := hesnd
        rw [← hesnd']
        exact (List.mem_filter.mp h2).1
    · rw [dedup_fold_snd] at h1
      rcases List.mem_append.mp h1 with h2 | h2
      · exact (List.mem_filter.mp h2).1
      · exact (List.mem_filter.mp (List.mem_filter.mp h2).1).1

/-- **C1** — corrected.  Every successful `/api/search` response is
sorted non-increasing by final score and holds at most the effective
limit of items; when the request's `filters` object has at least one
filter set, every returned record additionally passes every set filter
together with the globally configured excluded-extension list.  The
claim's filter clause fails in exactly one further case: a `filters`
object that is present with *no* filter set skips filtering entirely,
including the global exclusions — see `C1_counterexample`. -/
theorem C1_search_contract (st : AppState) (req : SearchRequest)
    (out : List SearchResult)
    (hout : search_files st req = .ok out) :
    out.Pairwise (fun a b => b.similarity ≤ a.similarity) ∧
    out.length ≤ effective_limit req.limit st.config ∧
    (∀ f, req.filters = some f →
      f.date_range.isSome ∨ f.file_types.isSome ∨ f.folder_paths.isSome →
      ∀ r ∈ out, ∃ m s, r = ⟨m.file_path, m.file_name, s, none⟩ ∧
        passes_filters st.localOf st.config.excluded_extensions f m = true) := by
  by_cases hq0 : (trimStr req.query).isEmpty = true
  · unfold search_files at hout
    rw [if_pos hq0] at hout
    exact absurd hout (by simp)
  · have hq : (trimStr req.query).isEmpty = false := by simpa using hq0
    cases hemb : st.embed_query (trimStr req.query) with
    | none =>
      simp only [search_files, hq, Bool.false_eq_true, if_false, hemb] at hout
      exact absurd hout (by simp)
    | some qe =>
      simp only [search_files, hq, Bool.false_eq_true, if_false, hemb] at hout
      rw [Except.ok.injEq] at hout
      subst hout
      refine ⟨?_, ?_, ?_⟩
      · apply List.pairwise_map.mpr
        apply List.Pairwise.sublist (List.take_sublist _ _)
        exact List.sorted_insertionSort _ _
      · rw [List.length_map, List.length_take]
        exact min_le_left _ _
      · intro f hf hset r hr
        rcases List.mem_map.mp hr with ⟨p, hp, hmk⟩
        have hpS := List.take_subset _ _ hp
        have hpD := (List.perm_insertionSort _ _).subset hpS
        have hpF : p ∈ apply_request_filters st req.filters
            (search_candidates st (trimStr req.query) qe
              (effective_limit req.limit st.config)) := by
          by_cases hdup : st.config.filter_duplicate_files = true
          · rw [if_pos hdup] at hpD
            exact dedup_subset hpD
          · rw [if_neg hdup] at hpD
            exact hpD
        rw [hf] at hpF
        unfold apply_request_filters at hpF
        dsimp only [] at hpF
        rw [if_pos hset] at hpF
        unfold apply_filters at hpF
        have hmem := List.mem_filter.mp hpF
        exact ⟨p.1, p.2, hmk.symm, hmem.2⟩

/-- C1 (counterexample): with `txt` globally excluded, a request whose
`filters` object is present but has no filter set returns the `txt`
record anyway — the handler skips *all* filtering, including the global
excluded-extension list, on that branch (while the same request with no
`filters` object enforces the exclusion). -/
theorem C1_counterexample :
    search_files exStateX ⟨str "alpha", some 5, some ⟨none, none, none⟩⟩ =
      .ok [⟨str "dir/alpha.txt", str "alpha.txt", mkRat 24939 40000, none⟩] ∧
    exStateX.config.excluded_extensions = [str "txt"] ∧
    lowerStr (extensionOf (str "dir/alpha.txt")) = str "txt" ∧
    search_files exStateX ⟨str "alpha", some 5, none⟩ = .ok [] := by
  decide

theorem C1_witness :
    ([⟨str "dir/alpha.txt", str "alpha.txt", mkRat 24939 40000, none⟩,
      ⟨str "dir/beta.txt", str "beta.txt", mkRat 2601 10000, none⟩] :
        List SearchResult).Pairwise (fun a b => b.similarity ≤ a.similarity) ∧
    ([⟨str "dir/alpha.txt", str "alpha.txt", mkRat 24939 40000, none⟩,
      ⟨str "dir/beta.txt", str "beta.txt", mkRat 2601 10000, none⟩] :
        List SearchResult).length ≤ effective_limit (some 5) exState.config ∧
    (∀ f, (some ⟨none, some [str "txt"], none⟩ : Option FilterOptions) = some f →
      f.date_range.isSome ∨ f.file_types.isSome ∨ f.folder_paths.isSome →
      ∀ r ∈ ([⟨str "dir/alpha.txt", str "alpha.txt", mkRat 24939 40000, none⟩,
          ⟨str "dir/beta.txt", str "beta.txt", mkRat 2601 10000, none⟩] :
            List SearchResult),
        ∃ m s, r = ⟨m.file_path, m.file_name, s, none⟩ ∧
          passes_filters exState.localOf exState.config.excluded_extensions
            f m = true) :=
  C1_search_contract exState
    ⟨str "alpha", some 5, some ⟨none, some [str "txt"], none⟩⟩ _
    (by decide)
